import Mathlib

/-!
# Verification of `remix-hook-form` utilities (`src/utilities/index.ts`)

This development gives a shallow embedding of the utility functions of the
repository and proves properties of them.  JavaScript runtime values are
modelled by the inductive type `JSVal`; JS objects are ordered association
lists (insertion order is observable through `Object.entries`), JS arrays
carry both their ordered elements and their non-index string properties.
Thrown JS exceptions are modelled by `Except JErr`.  The embedding does not
model JS exotic property behaviour (prototypes, the `length` property of
arrays, getters); none of the proved statements depends on such keys.
All code is an ES module, hence strict mode: assigning a property to a
primitive value throws a `TypeError`.
-/

namespace RemixHookForm

/-- A JavaScript value, as needed by the utilities under verification:
`null`, booleans, numbers (modelled as integers; float formatting is outside
the scope of this embedding), strings, `undefined`, arrays (ordered elements
plus non-index string properties) and plain objects (ordered field lists). -/
inductive JSVal : Type where
  | null : JSVal
  | bool : Bool → JSVal
  | num : Int → JSVal
  | str : String → JSVal
  | undef : JSVal
  | arr : List JSVal → List (String × JSVal) → JSVal
  | obj : List (String × JSVal) → JSVal
deriving Repr

/-- Object field lists: ordered `(key, value)` pairs. -/
abbrev JFields := List (String × JSVal)

/-- JS truthiness of a value (`!v` in the source negates this). -/
def evTruthy : JSVal → Bool
  | .null => false
  | .bool b => b
  | .num n => n != 0
  | .str s => s != ""
  | .undef => false
  | .arr _ _ => true
  | .obj _ => true

/-- Truthiness of an optional value; `none` models an absent property
(`undefined`), which is falsy. -/
def optTruthy : Option JSVal → Bool
  | none => false
  | some v => evTruthy v

/-- First-match lookup in an ordered field list. -/
def lookupF : JFields → String → Option JSVal
  | [], _ => none
  | (k, v) :: rest, key => if k = key then some v else lookupF rest key

/-- JS property assignment on an object: an existing key keeps its position
and gets the new value, a new key is appended (JS insertion order). -/
def objAssign : JFields → String → JSVal → JFields
  | [], key, val => [(key, val)]
  | (k, v) :: rest, key, val =>
      if k = key then (k, val) :: rest else (k, v) :: objAssign rest key val

/-- The test `/^\d+$/.test(s)` of the source: `s` is one or more ASCII
digits. -/
def isNumericStr (s : String) : Bool := !s.data.isEmpty && s.data.all Char.isDigit

/-- Decimal value of a digit list (most significant first). -/
def digitsToNat (ds : List Char) : Nat :=
  ds.foldl (fun a c => 10 * a + (c.toNat - 48)) 0

/-- A canonical JS array index: a digit string with no leading zero
(`"0"`, `"1"`, `"10"`, … but not `"01"`).  Such keys address array
elements; any other key addresses an ordinary string property. -/
def canonIndex (s : String) : Option Nat :=
  match s.data with
  | [] => none
  | ['0'] => some 0
  | '0' :: _ => none
  | ds => if ds.all Char.isDigit then some (digitsToNat ds) else none

/-- The test `/\[\d*\]$|\[\]$/.test(s)` of `generateFormData` (line 44):
does the key end in `[` + zero or more digits + `]`?  (The second
alternative `\[\]$` is the zero-digit case of the first.) -/
def bracketTest (s : String) : Bool :=
  match s.data.reverse with
  | ']' :: rest =>
      match rest.dropWhile Char.isDigit with
      | '[' :: _ => true
      | _ => false
  | _ => false

/-- `s.replace(/\[\d*\]$|\[\]$/, "")` of `generateFormData` (line 48):
strip the final bracket suffix (the regex is anchored at the end, so at
most one match exists).  Returns `s` unchanged when there is no match. -/
def stripBracket (s : String) : String :=
  match s.data.reverse with
  | ']' :: rest =>
      match rest.dropWhile Char.isDigit with
      | '[' :: rest2 => ⟨rest2.reverse⟩
      | _ => s
  | _ => s

/-- Reading an element of a JS array by string key: a canonical index reads
the element list (out of range gives `undefined`), any other key reads the
string properties. -/
def arrGet (es : List JSVal) (ps : JFields) (key : String) : Option JSVal :=
  match canonIndex key with
  | some i => es.get? i
  | none => lookupF ps key

/-- Writing an element at a (possibly out-of-range) index: JS pads the
array with holes, modelled as `undefined` elements. -/
def padWrite (es : List JSVal) (i : Nat) (v : JSVal) : List JSVal :=
  if i < es.length then es.set i v
  else es ++ List.replicate (i - es.length) JSVal.undef ++ [v]

/-- Writing a JS array property: canonical indices write elements, other
keys write string properties. -/
def arrSet (es : List JSVal) (ps : JFields) (key : String) (v : JSVal) :
    List JSVal × JFields :=
  match canonIndex key with
  | some i => (padWrite es i v, ps)
  | none => (es, objAssign ps key v)

/-- `currentObject[key]` on a container. -/
def propGet (cur : JSVal) (key : String) : Option JSVal :=
  match cur with
  | .obj fs => lookupF fs key
  | .arr es ps => arrGet es ps key
  | _ => none

/-- `currentObject[key] = v` on a container (identity on primitives; the
embedding never uses it on primitives). -/
def propSet (cur : JSVal) (key : String) (v : JSVal) : JSVal :=
  match cur with
  | .obj fs => .obj (objAssign fs key v)
  | .arr es ps =>
      match arrSet es ps key v with
      | (es2, ps2) => .arr es2 ps2
  | other => other

/-- Modelled JS exceptions: `TypeError` (pushing on a non-array, assigning
a property of a primitive), the `Error("Data is not a string")` of
`parseFormData`, and the `SyntaxError` of `JSON.parse`. -/
inductive JErr : Type where
  | typeError : JErr
  | notAString : JErr
  | badJson : JErr
deriving Repr, DecidableEq

/-- Handling of the last key part in `generateFormData` (lines 42-65):
a bracket-suffixed key strips the suffix, ensures an array under the
stripped name and pushes the value (a truthy non-array binding makes
`.push` throw a `TypeError`); a purely numeric key calls
`currentObject.push(value)`, a `TypeError` unless the container is an
array; any other key is plain assignment.  When the current container is a
primitive (a string reached by walking through an earlier leaf value),
every one of these operations throws a `TypeError` in strict mode, which
the embedding collapses into `.error .typeError`. -/
def lastSegmentStep (cur : JSVal) (lastKeyPart : String) (value : JSVal) :
    Except JErr JSVal :=
  if bracketTest lastKeyPart then
    match cur with
    | .obj _ | .arr _ _ =>
      if optTruthy (propGet cur (stripBracket lastKeyPart)) then
        match propGet cur (stripBracket lastKeyPart) with
        | some (.arr es ps) =>
            .ok (propSet cur (stripBracket lastKeyPart) (.arr (es ++ [value]) ps))
        | _ => .error .typeError
      else
        .ok (propSet cur (stripBracket lastKeyPart) (.arr [value] []))
    | _ => .error .typeError
  else if isNumericStr lastKeyPart then
    match cur with
    | .arr es ps => .ok (.arr (es ++ [value]) ps)
    | _ => .error .typeError
  else
    match cur with
    | .obj fs => .ok (.obj (objAssign fs lastKeyPart value))
    | .arr es ps => .ok (propSet (.arr es ps) lastKeyPart value)
    | _ => .error .typeError

/-- Processing of one form-data entry by `generateFormData` (lines 23-66):
walk all key parts but the last, creating a missing (or falsy) intermediate
container — an array when the next part is numeric, an object otherwise —
and finally apply `lastSegmentStep`.  Walking into a primitive (a string
stored by an earlier entry) always ends in a `TypeError`: either the
creating assignment `currentObject[keyPart] = …` throws on the primitive,
or the walk descends into a character of the string and the final
operation throws; the embedding reports the `TypeError` directly. -/
def procSegs (cur : JSVal) (segs : List String) (value : JSVal) :
    Except JErr JSVal :=
  match segs with
  | [] => .ok cur
  | [lastKeyPart] => lastSegmentStep cur lastKeyPart value
  | keyPart :: next :: rest =>
    match cur with
    | .obj _ | .arr _ _ =>
      let child0 :=
        if optTruthy (propGet cur keyPart) then (propGet cur keyPart).getD .undef
        else if isNumericStr next then .arr [] [] else .obj []
      match procSegs child0 (next :: rest) value with
      | .ok child => .ok (propSet cur keyPart child)
      | .error e => .error e
    | _ => .error .typeError

/-- Auxiliary of `splitOnDot`: `acc` holds the (reversed) characters of the
current segment. -/
def splitDotAux : List Char → List Char → List String
  | [], acc => [⟨acc.reverse⟩]
  | c :: rest, acc =>
      if c = '.' then ⟨acc.reverse⟩ :: splitDotAux rest []
      else splitDotAux rest (c :: acc)

/-- `key.split(".")` of `generateFormData` (line 25): split on every dot;
the result is never empty (`"".split(".")` is `[""]`, `".".split(".")` is
`["", ""]`). -/
def splitOnDot (s : String) : List String := splitDotAux s.data []

/-- `generateFormData` (lines 18-70): fold the flat entry set into a nested
output object, splitting each key on `"."`.  A thrown `TypeError` aborts
the whole call (the partially mutated output object is unobservable). -/
def generateFormData (entries : List (String × JSVal)) : Except JErr JSVal :=
  entries.foldlM
    (fun outputObject e => procSegs outputObject (splitOnDot e.1) e.2)
    (JSVal.obj [])

/-- `isGet` (lines 77-78): the request method is the exact string `"GET"`
or the exact string `"get"`.  The request object is modelled by its
`method` field. -/
def isGet (method : String) : Bool := method == "GET" || method == "get"

section FlattenerChecks

example : generateFormData [("a.b", .str "1"), ("a.c", .str "2")] =
    .ok (.obj [("a", .obj [("b", .str "1"), ("c", .str "2")])]) := rfl

example : generateFormData [("a[0]", .str "x"), ("a[1]", .str "y")] =
    .ok (.obj [("a", .arr [.str "x", .str "y"] [])]) := rfl

example : generateFormData [("list.0", .str "x"), ("list.1", .str "y")] =
    .ok (.obj [("list", .arr [.str "x", .str "y"] [])]) := rfl

example : generateFormData [("a.b", .str "x"), ("a.0", .str "y")] =
    .error .typeError := rfl

example : generateFormData [("a.0", .str "x"), ("a.b", .str "y")] =
    .ok (.obj [("a", .arr [.str "x"] [("b", .str "y")])]) := rfl

end FlattenerChecks

/-- The container kind of a value: plain object, ordered list (array), or
primitive (everything else). -/
inductive ContainerKind : Type where
  | object : ContainerKind
  | list : ContainerKind
  | primitive : ContainerKind
deriving Repr, DecidableEq

/-- Kind of a value. -/
def kindOf : JSVal → ContainerKind
  | .obj _ => .object
  | .arr _ _ => .list
  | _ => .primitive

theorem kindOf_propSet (cur : JSVal) (k : String) (v : JSVal) :
    kindOf (propSet cur k v) = kindOf cur := by
  cases cur <;> rfl

theorem lastSegmentStep_kind (cur : JSVal) (last : String) (value out : JSVal)
    (h : lastSegmentStep cur last value = .ok out) : kindOf out = kindOf cur := by
  unfold lastSegmentStep at h
  repeat' split at h
  all_goals try exact (Except.noConfusion h)
  all_goals injection h with h2
  all_goals subst h2
  all_goals rfl

theorem procSegs_kind : ∀ (segs : List String) (cur value out : JSVal),
    procSegs cur segs value = .ok out → kindOf out = kindOf cur := by
  intro segs cur value out h
  match segs with
  | [] =>
    simp only [procSegs] at h
    injection h with h2; subst h2; rfl
  | [last] => exact lastSegmentStep_kind _ _ _ _ h
  | k :: next :: rest =>
    simp only [procSegs] at h
    repeat' split at h
    all_goals try exact (Except.noConfusion h)
    all_goals injection h with h2
    all_goals subst h2
    all_goals exact kindOf_propSet _ _ _

/-- C4 (counterexample): `isGet` is not case-insensitive.  The method
string `"Get"` is a capitalization of `"get"` (mapping it to lower case
gives exactly `"get"`), yet `isGet` returns `false` on it, contradicting
the claim that any capitalization of `"get"` is accepted. -/
theorem isGet_not_case_insensitive :
    isGet "Get" = false ∧ "Get".data.map Char.toLower = "get".data :=
  ⟨rfl, by decide⟩

/-- C4 (amended): `isGet` returns `true` exactly for the two exact strings
`"GET"` and `"get"` (source lines 77-78); every other method string,
including other capitalizations such as `"Get"`, yields `false`. -/
theorem isGet_iff (method : String) :
    isGet method = true ↔ method = "GET" ∨ method = "get" := by
  simp [isGet]

/-- Witness for `isGet_iff` at the concrete method `"get"`. -/
theorem isGet_iff_witness : isGet "get" = true :=
  (isGet_iff "get").mpr (Or.inr rfl)

/-- C3 (counterexample): `generateFormData` does not always return without
throwing.  On the flat entry set `[("a.b", "x"), ("a.0", "y")]` the second
entry has the purely numeric final segment `"0"` while the container at
`a` is a plain object created by the first entry, so line 59 of the source
(`currentObject.push(value)`) throws `TypeError: currentObject.push is not
a function` — exactly the malformed-path shape the claim says produces a
best-effort structure instead of a raised error. -/
theorem generateFormData_numeric_into_object_throws :
    generateFormData [("a.b", .str "x"), ("a.0", .str "y")] =
      .error .typeError := rfl

/-- C3 (amended): `generateFormData` performs no well-formedness
validation.  Some malformed paths do produce best-effort partial
structures — mixing array-index and object-property usage on the same path
attaches the property to the array (first conjunct), and a falsy stored
value is silently overwritten by a fresh container (third conjunct) — but
an entry whose purely numeric final segment lands in a plain-object
container, or whose path traverses a previously stored truthy string,
raises a `TypeError` instead of returning (second conjunct and
`generateFormData_numeric_into_object_throws`). -/
theorem generateFormData_best_effort_or_typeError :
    generateFormData [("a.0", .str "x"), ("a.b", .str "y")] =
      .ok (.obj [("a", .arr [.str "x"] [("b", .str "y")])])
  ∧ generateFormData [("a", .str "x"), ("a.b", .str "y")] = .error .typeError
  ∧ generateFormData [("a", .str ""), ("a.b", .str "y")] =
      .ok (.obj [("a", .obj [("b", .str "y")])]) :=
  ⟨rfl, rfl, rfl⟩

/-- C9: handling of a bracket-suffixed last key part (source lines 44-53).
The suffix (`[n]` or `[]`, digits ignored) is stripped; if the binding
under the stripped field name is absent or falsy, a fresh ordered list
holding just the value is installed; if it is an existing list, the value
is appended at the end — so repeated bracket-suffixed keys accumulate in
encounter order regardless of the digits inside the brackets, and
`flatten([["a[0]","x"],["a[1]","y"]])` is `{a: ["x","y"]}`. -/
theorem generateFormData_bracket_append :
    (∀ (fs : JFields) (last : String) (value : JSVal),
       bracketTest last = true →
       optTruthy (lookupF fs (stripBracket last)) = false →
       lastSegmentStep (.obj fs) last value =
         .ok (.obj (objAssign fs (stripBracket last) (.arr [value] []))))
  ∧ (∀ (fs : JFields) (last : String) (value : JSVal) (es : List JSVal)
       (ps : JFields),
       bracketTest last = true →
       lookupF fs (stripBracket last) = some (.arr es ps) →
       lastSegmentStep (.obj fs) last value =
         .ok (.obj (objAssign fs (stripBracket last) (.arr (es ++ [value]) ps))))
  ∧ generateFormData [("a[0]", .str "x"), ("a[1]", .str "y")] =
      .ok (.obj [("a", .arr [.str "x", .str "y"] [])]) := by
  refine ⟨?_, ?_, rfl⟩
  · intro fs last value h1 h2
    simp [lastSegmentStep, h1, propGet, h2, propSet]
  · intro fs last value es ps h1 h2
    simp [lastSegmentStep, h1, propGet, h2, optTruthy, evTruthy, propSet]

/-- Witness for `generateFormData_bracket_append`: on an empty object, the
entry `a[7]=x` installs `a = ["x"]`. -/
theorem generateFormData_bracket_append_witness :
    lastSegmentStep (.obj []) "a[7]" (.str "x") =
      .ok (.obj (objAssign [] (stripBracket "a[7]") (.arr [.str "x"] []))) :=
  generateFormData_bracket_append.1 [] "a[7]" (.str "x") rfl rfl

/-- C10: the container-type invariant of `generateFormData` (source lines
30-40).  First conjunct: processing an entry never changes the kind
(object vs ordered list) of the container it starts from, so the type
chosen at a branch point is never changed by later entries that revisit
it.  Second conjunct: when the binding at a key part is absent or falsy,
the entry installs a fresh container there whose kind is decided by
whether the next path segment matches `^\d+$`.  Third conjunct: when a
truthy binding already exists at the key part, the entry descends into
that very binding and the binding's kind is preserved. -/
theorem generateFormData_branch_container_invariant :
    (∀ (segs : List String) (cur value out : JSVal),
       procSegs cur segs value = .ok out → kindOf out = kindOf cur)
  ∧ (∀ (fs : JFields) (keyPart next : String) (rest : List String)
       (value out : JSVal),
       optTruthy (lookupF fs keyPart) = false →
       procSegs (.obj fs) (keyPart :: next :: rest) value = .ok out →
       ∃ child, out = .obj (objAssign fs keyPart child) ∧
         kindOf child =
           (if isNumericStr next then ContainerKind.list else ContainerKind.object))
  ∧ (∀ (fs : JFields) (keyPart next : String) (rest : List String)
       (value out b : JSVal),
       lookupF fs keyPart = some b → evTruthy b = true →
       procSegs (.obj fs) (keyPart :: next :: rest) value = .ok out →
       ∃ child, procSegs b (next :: rest) value = .ok child ∧
         out = .obj (objAssign fs keyPart child) ∧ kindOf child = kindOf b) := by
  refine ⟨procSegs_kind, ?_, ?_⟩
  · intro fs keyPart next rest value out hfalsy h
    simp only [procSegs, propGet, hfalsy, Bool.false_eq_true, if_false] at h
    split at h
    · next child hrec =>
      injection h with h2; subst h2
      refine ⟨child, rfl, ?_⟩
      have := procSegs_kind (next :: rest) _ value child hrec
      split at this <;> split <;> simp_all [kindOf]
    · exact (Except.noConfusion h)
  · intro fs keyPart next rest value out b hlk htr h
    simp only [procSegs, propGet, hlk, optTruthy, htr, if_true, Option.getD] at h
    split at h
    · next child hrec =>
      injection h with h2; subst h2
      exact ⟨child, hrec, rfl, procSegs_kind (next :: rest) _ value child hrec⟩
    · exact (Except.noConfusion h)

/-- Witness for `generateFormData_branch_container_invariant`: concrete
uses of the three conjuncts. -/
theorem generateFormData_branch_container_invariant_witness :
    ∃ child, JSVal.obj [("a", .arr [.str "x"] [])] =
      .obj (objAssign [] "a" child) ∧
      kindOf child =
        (if isNumericStr "0" then ContainerKind.list else ContainerKind.object) :=
  generateFormData_branch_container_invariant.2.1 [] "a" "0" [] (.str "x")
    (.obj [("a", .arr [.str "x"] [])]) rfl rfl

/-- Result of `validateFormData`: either the resolver's error object with
no data, or the resolver's values with no errors. -/
structure ValidationResult : Type where
  errors : Option JFields
  data : Option JSVal
deriving Repr

/-- `validateFormData` (lines 106-121).  The resolver is modelled as a
function from the data to the `{errors, values}` pair it resolves to; the
context `{}` and the options object passed by the source are constants
carrying no information, so they are elided.  If the resolver's error
object has at least one key (`Object.keys(errors).length > 0`) the errors
are returned with `data: undefined`; otherwise the values are returned
with `errors: undefined`. -/
def validateFormData (data : JSVal) (resolver : JSVal → JFields × JSVal) :
    ValidationResult :=
  let r := resolver data
  if 0 < r.1.length then ⟨some r.1, none⟩ else ⟨none, some r.2⟩

/-- C7: `validateFormData` returns `{errors, data: undefined}` exactly when
the resolver reports at least one error key, and `{errors: undefined,
data: values}` when the resolver's error object has zero keys. -/
theorem validateFormData_spec (data : JSVal)
    (resolver : JSVal → JFields × JSVal) (errs : JFields) (vals : JSVal)
    (hres : resolver data = (errs, vals)) :
    (errs ≠ [] → validateFormData data resolver = ⟨some errs, none⟩)
  ∧ (errs = [] → validateFormData data resolver = ⟨none, some vals⟩) := by
  constructor <;> intro h
  · have : 0 < errs.length := List.length_pos.mpr h
    simp [validateFormData, hres, this]
  · subst h; simp [validateFormData, hres]

/-- Witness for `validateFormData_spec`: a resolver reporting one error key
produces `{errors, data: undefined}`. -/
theorem validateFormData_spec_witness :
    validateFormData (.obj [])
      (fun _ => ([("name", .str "Required")], .obj [])) =
      ⟨some [("name", .str "Required")], none⟩ :=
  (validateFormData_spec (.obj []) _ [("name", .str "Required")] (.obj [])
    rfl).1 (by simp)

/-- `typeof v === "object"` for the values the merger can see.  In JS this
is also true of `null`; the spec's error-tree data model has no `null`
nodes, and the embedding does not model the `TypeError` that the
root-special-case would throw on `{root: null}`. -/
def jsTypeofObject : JSVal → Bool
  | .obj _ => true
  | .arr _ _ => true
  | _ => false

/-- `Array.isArray`. -/
def isArrayV : JSVal → Bool
  | .arr _ _ => true
  | _ => false

/-- `Object.entries(v)`: the fields of an object; for an array the indexed
elements followed by the string properties; for a string the indexed
one-character strings (JS indexes UTF-16 units; the embedding indexes code
points, which agrees outside astral characters); nothing for other
primitives. -/
def entriesOf : JSVal → JFields
  | .obj fs => fs
  | .arr es ps => (es.enum.map (fun p => (toString p.1, p.2))) ++ ps
  | .str s => s.data.enum.map (fun p => (toString p.1, JSVal.str (String.mk [p.2])))
  | _ => []

/-- The object literal `{…init, ...v}`: spread the own enumerable entries
of `v` over the already-written fields `init`, updating existing keys in
place and appending new ones. -/
def spreadInto (init : JFields) (v : JSVal) : JFields :=
  (entriesOf v).foldl (fun acc p => objAssign acc p.1 p.2) init

/-- `parseRightValue` (lines 210-234): on the key `"root"`, a truthy
`serverError` sub-field is rewritten to a single entry
`{"root.serverError": {type: "400", ...serverError}}` and a truthy
`random` sub-field to `{"root.random": {type: "random", ...random}}`.
In the source the `random` rewrite is a second `if` that overwrites the
`serverError` one, so when both are truthy only the `random` rewrite
survives; here that is rendered by testing `random` first. -/
def parseRightValue (key : String) (rightValue : JSVal) : JSVal :=
  if key = "root" then
    if optTruthy (propGet rightValue "random") then
      .obj [("root.random",
        .obj (spreadInto [("type", .str "random")]
          ((propGet rightValue "random").getD .undef)))]
    else if optTruthy (propGet rightValue "serverError") then
      .obj [("root.serverError",
        .obj (spreadInto [("type", .str "400")]
          ((propGet rightValue "serverError").getD .undef)))]
    else rightValue
  else rightValue

mutual

/-- Nesting depth of a value: primitives have depth 0, containers one more
than their deepest child.  Used only for the termination measure of the
merge recursion. -/
def depthV : JSVal → Nat
  | .null => 0
  | .bool _ => 0
  | .num _ => 0
  | .str _ => 0
  | .undef => 0
  | .arr es ps => 1 + max (depthElems es) (depthFields ps)
  | .obj fs => 1 + depthFields fs

/-- Largest depth among a list of values. -/
def depthElems : List JSVal → Nat
  | [] => 0
  | v :: rest => max (depthV v) (depthElems rest)

/-- Largest depth among the values of a field list. -/
def depthFields : List (String × JSVal) → Nat
  | [] => 0
  | p :: rest => max (depthV p.2) (depthFields rest)

end

/-- Measure of an entry work-list: the largest `1 + depth` of its values. -/
def entriesDepth : JFields → Nat
  | [] => 0
  | p :: rest => max (1 + depthV p.2) (entriesDepth rest)

/-- Does this entry trigger the `"root"` rewrite of `parseRightValue`? -/
def wrapPotential (p : String × JSVal) : Bool :=
  p.1 == "root" &&
    (optTruthy (propGet p.2 "serverError") || optTruthy (propGet p.2 "random"))

/-- Number of entries of a work-list that would trigger the root
rewrite. -/
def wrapCount (l : JFields) : Nat := l.countP wrapPotential

theorem depthV_of_lookupF {fs : JFields} {k : String} {w : JSVal}
    (h : lookupF fs k = some w) : depthV w ≤ depthFields fs := by
  induction fs with
  | nil => simp [lookupF] at h
  | cons p rest ih =>
    simp only [lookupF] at h
    split at h
    · injection h with h2; subst h2
      simp only [depthFields]
      exact le_max_left _ _
    · exact le_trans (ih h) (by simp only [depthFields]; exact le_max_right _ _)

theorem depthFields_append (l1 l2 : JFields) :
    depthFields (l1 ++ l2) = max (depthFields l1) (depthFields l2) := by
  induction l1 with
  | nil => simp [depthFields]
  | cons p rest ih => simp [depthFields, ih, Nat.max_assoc]

theorem depthFields_objAssign (fs : JFields) (k : String) (v : JSVal) :
    depthFields (objAssign fs k v) ≤ max (depthFields fs) (depthV v) := by
  induction fs with
  | nil => simp [objAssign, depthFields]
  | cons p rest ih =>
    simp only [objAssign]
    split
    · simp only [depthFields]; omega
    · simp only [depthFields]; omega

theorem depthFields_foldl_objAssign (l : JFields) :
    ∀ init, depthFields (l.foldl (fun acc p => objAssign acc p.1 p.2) init) ≤
      max (depthFields init) (depthFields l) := by
  induction l with
  | nil => intro init; simp [depthFields]
  | cons p rest ih =>
    intro init
    have h1 := ih (objAssign init p.1 p.2)
    have h2 := depthFields_objAssign init p.1 p.2
    simp only [List.foldl_cons, depthFields] at h1 ⊢
    omega

theorem depthFields_spreadInto (init : JFields) (v : JSVal) :
    depthFields (spreadInto init v) ≤
      max (depthFields init) (depthFields (entriesOf v)) :=
  depthFields_foldl_objAssign (entriesOf v) init

theorem depthFields_enumFrom_map_str (l : List Char) :
    ∀ n, depthFields ((l.enumFrom n).map
      (fun p => (toString p.1, JSVal.str (String.mk [p.2])))) = 0 := by
  induction l with
  | nil => intro n; rfl
  | cons c rest ih =>
    intro n
    simp [List.enumFrom, List.map_cons, depthFields, ih, depthV]

theorem depthFields_enumFrom_map (es : List JSVal) :
    ∀ n, depthFields ((es.enumFrom n).map (fun p => (toString p.1, p.2))) =
      depthElems es := by
  induction es with
  | nil => intro n; rfl
  | cons v rest ih =>
    intro n
    simp only [List.enumFrom, List.map_cons, depthFields, depthElems, ih]

theorem depthFields_entriesOf_succ (v : JSVal) :
    depthFields (entriesOf v) + 1 ≤ max 1 (depthV v) := by
  cases v with
  | obj fs => simp only [entriesOf, depthV]; omega
  | arr es ps =>
    simp only [entriesOf, depthV, List.enum, depthFields_append,
      depthFields_enumFrom_map]
    omega
  | str s =>
    simp only [entriesOf, List.enum, depthFields_enumFrom_map_str]
    omega
  | null => simp [entriesOf, depthFields]
  | bool b => simp [entriesOf, depthFields]
  | num n => simp [entriesOf, depthFields]
  | undef => simp [entriesOf, depthFields]

theorem entriesDepth_le (l : JFields) : entriesDepth l ≤ 1 + depthFields l := by
  induction l with
  | nil => simp [entriesDepth]
  | cons p rest ih => simp only [entriesDepth, depthFields] at *; omega

theorem lex3_of_le_le_lt {a b c a2 b2 c2 : Nat} (h1 : a ≤ a2) (h2 : b ≤ b2)
    (h3 : c < c2) :
    Prod.Lex (· < ·) (Prod.Lex (· < ·) (· < ·)) (a, b, c) (a2, b2, c2) := by
  rcases Nat.lt_or_ge a a2 with h | h
  · exact Prod.Lex.left _ _ h
  · have ha : a = a2 := Nat.le_antisymm h1 h
    subst ha
    rcases Nat.lt_or_ge b b2 with h' | h'
    · exact Prod.Lex.right _ (Prod.Lex.left _ _ h')
    · have hb : b = b2 := Nat.le_antisymm h2 h'
      subst hb
      exact Prod.Lex.right _ (Prod.Lex.right _ h3)

theorem lex3_of_le_lt {a b c a2 b2 c2 : Nat} (h1 : a ≤ a2) (h2 : b < b2) :
    Prod.Lex (· < ·) (Prod.Lex (· < ·) (· < ·)) (a, b, c) (a2, b2, c2) := by
  rcases Nat.lt_or_ge a a2 with h | h
  · exact Prod.Lex.left _ _ h
  · have ha : a = a2 := Nat.le_antisymm h1 h
    subst ha
    exact Prod.Lex.right _ (Prod.Lex.left _ _ h2)

theorem lex3_of_lt {a b c a2 b2 c2 : Nat} (h1 : a < a2) :
    Prod.Lex (· < ·) (Prod.Lex (· < ·) (· < ·)) (a, b, c) (a2, b2, c2) :=
  Prod.Lex.left _ _ h1

theorem optTruthy_iff (o : Option JSVal) :
    optTruthy o = true ↔ ∃ w, o = some w ∧ evTruthy w = true := by
  cases o <;> simp [optTruthy]

/-- Depth bound for the work-list produced by the root rewrite: the single
wrapped entry is no deeper than one level above the wrapped sub-field. -/
theorem entriesDepth_wrap_le {fs : JFields} {w : JSVal}
    (hw : depthV w ≤ depthFields fs) (wk t : String) :
    entriesDepth [(wk, JSVal.obj (spreadInto [("type", JSVal.str t)] w))] ≤
      1 + depthV (JSVal.obj fs) := by
  have h1 := depthFields_spreadInto [("type", JSVal.str t)] w
  have h2 := depthFields_entriesOf_succ w
  simp only [entriesDepth, depthV, depthFields] at *
  omega

/-- Tail step of the merge work-list: the remaining entries are no deeper,
have no more root rewrites, and are strictly shorter. -/
theorem mergeTail_lex (p : String × JSVal) (rest : JFields) :
    Prod.Lex (· < ·) (Prod.Lex (· < ·) (· < ·))
      (entriesDepth rest, wrapCount rest, rest.length)
      (entriesDepth (p :: rest), wrapCount (p :: rest), (p :: rest).length) :=
  lex3_of_le_le_lt (by simp only [entriesDepth]; exact le_max_right _ _)
    (by simp only [wrapCount, List.countP_cons]; omega)
    (by simp)

/-- Recursive step of the merge: processing the entries of
`parseRightValue key v` (for an object value `v`) is smaller in the
lexicographic measure than processing `(key, v)` itself.  Without a root
rewrite the work-list drops one nesting level (strictly smaller depth);
with a root rewrite the depth does not grow and the count of pending root
rewrites drops to zero. -/
theorem mergeInner_lex (key : String) (gs : List (String × JSVal))
    (rest : JFields) :
    Prod.Lex (· < ·) (Prod.Lex (· < ·) (· < ·))
      (entriesDepth (entriesOf (parseRightValue key (JSVal.obj gs))),
       wrapCount (entriesOf (parseRightValue key (JSVal.obj gs))),
       (entriesOf (parseRightValue key (JSVal.obj gs))).length)
      (entriesDepth ((key, JSVal.obj gs) :: rest),
       wrapCount ((key, JSVal.obj gs) :: rest),
       ((key, JSVal.obj gs) :: rest).length) := by
  have hdepth : depthV (JSVal.obj gs) = 1 + depthFields gs := rfl
  have hhead : 1 + depthV (JSVal.obj gs) ≤
      entriesDepth ((key, JSVal.obj gs) :: rest) := by
    simp only [entriesDepth]; exact le_max_left _ _
  by_cases hk : key = "root"
  · subst hk
    by_cases hr : optTruthy (propGet (JSVal.obj gs) "random") = true
    · obtain ⟨w, hw, hwt⟩ := (optTruthy_iff _).mp hr
      have hwd : depthV w ≤ depthFields gs :=
        depthV_of_lookupF (show lookupF gs "random" = some w from hw)
      have hprv : parseRightValue "root" (JSVal.obj gs) =
          JSVal.obj [("root.random",
            JSVal.obj (spreadInto [("type", JSVal.str "random")] w))] := by
        unfold parseRightValue
        rw [if_pos rfl, if_pos hr, hw]
        rfl
      rw [hprv]
      apply lex3_of_le_lt
      · exact le_trans (entriesDepth_wrap_le hwd _ _) hhead
      · have hzf : wrapPotential ("root.random",
            JSVal.obj (spreadInto [("type", JSVal.str "random")] w)) = false := by
          simp [wrapPotential]
        have hpos : wrapPotential ("root", JSVal.obj gs) = true := by
          simp [wrapPotential, hr]
        simp [entriesOf, wrapCount, List.countP_cons, hzf, hpos]
    · by_cases hs : optTruthy (propGet (JSVal.obj gs) "serverError") = true
      · obtain ⟨w, hw, hwt⟩ := (optTruthy_iff _).mp hs
        have hwd : depthV w ≤ depthFields gs :=
          depthV_of_lookupF (show lookupF gs "serverError" = some w from hw)
        have hprv : parseRightValue "root" (JSVal.obj gs) =
            JSVal.obj [("root.serverError",
              JSVal.obj (spreadInto [("type", JSVal.str "400")] w))] := by
          unfold parseRightValue
          rw [if_pos rfl, if_neg hr, if_pos hs, hw]
          rfl
        rw [hprv]
        apply lex3_of_le_lt
        · exact le_trans (entriesDepth_wrap_le hwd _ _) hhead
        · have hzf : wrapPotential ("root.serverError",
              JSVal.obj (spreadInto [("type", JSVal.str "400")] w)) = false := by
            simp [wrapPotential]
          have hpos : wrapPotential ("root", JSVal.obj gs) = true := by
            simp [wrapPotential, hs]
          simp [entriesOf, wrapCount, List.countP_cons, hzf, hpos]
      · have hprv : parseRightValue "root" (JSVal.obj gs) = JSVal.obj gs := by
          simp [parseRightValue, hr, hs]
        rw [hprv]
        apply lex3_of_lt
        have := entriesDepth_le gs
        simp only [entriesOf]
        omega
  · have hprv : parseRightValue key (JSVal.obj gs) = JSVal.obj gs := by
      simp [parseRightValue, hk]
    rw [hprv]
    apply lex3_of_lt
    have := entriesDepth_le gs
    simp only [entriesOf]
    omega

/-- The entry-processing loop of `mergeErrors` (lines 181-196), with the
recursive call `mergeErrors(frontendErrors, parseRightValue(key,
rightValue))` of line 187 rendered as processing the `Object.entries` of
`parseRightValue key rightValue` against the same top-level field list
(the recursive call passes no callback, so the default no-op runs and
only the field list matters).  Branches, in source order: a non-array
object value with falsy `message` recurses; a value with truthy `message`
is written as `{type: "custom", ...rightValue}`; a string value is written
as `{message: rightValue, type: "custom"}`; anything else is ignored. -/
def mergeEntries (f : JFields) (l : JFields) : JFields :=
  match l with
  | [] => f
  | (key, rightValue) :: rest =>
    if _h1 : (jsTypeofObject rightValue && !isArrayV rightValue &&
        !optTruthy (propGet rightValue "message")) = true then
      mergeEntries (mergeEntries f (entriesOf (parseRightValue key rightValue)))
        rest
    else if _h2 : optTruthy (propGet rightValue "message") = true then
      mergeEntries
        (objAssign f key (.obj (spreadInto [("type", JSVal.str "custom")]
          rightValue))) rest
    else
      match rightValue with
      | .str s =>
          mergeEntries
            (objAssign f key
              (.obj [("message", JSVal.str s), ("type", JSVal.str "custom")]))
            rest
      | _ => mergeEntries f rest
termination_by (entriesDepth l, wrapCount l, l.length)
decreasing_by
  · obtain ⟨gs, rfl⟩ : ∃ gs, rightValue = JSVal.obj gs := by
      cases rightValue <;> simp_all [jsTypeofObject, isArrayV]
    exact mergeInner_lex key gs rest
  · exact mergeTail_lex _ rest
  · exact mergeTail_lex _ rest
  · exact mergeTail_lex _ rest
  · exact mergeTail_lex _ rest

/-- `mergeErrors` (lines 172-201).  A falsy `backendErrors` (absent, or a
falsy value) returns the frontend tree unchanged without invoking
`onMerge`; otherwise every entry of the backend value is merged into the
frontend field list and the caller's `onMerge` runs exactly once.  The
callback is modelled as a state transformer `α → α` applied to a start
state, so "invoked exactly once" is visible in the returned state; the
source mutates `frontendErrors` in place and returns it, modelled by
returning the updated field list. -/
def mergeErrors {α : Type} (frontendErrors : JFields)
    (backendErrors : Option JSVal) (onMerge : α → α) (s : α) : JFields × α :=
  match backendErrors with
  | none => (frontendErrors, s)
  | some b =>
    if evTruthy b then (mergeEntries frontendErrors (entriesOf b), onMerge s)
    else (frontendErrors, s)

section MergeChecks

example : mergeErrors [] (some (.obj [("name", .str "Required")]))
    (fun n : Nat => n + 1) 0 =
    ([("name", .obj [("message", .str "Required"), ("type", .str "custom")])],
     1) := by
  simp [mergeErrors, mergeEntries, entriesOf, parseRightValue, propGet,
    lookupF, optTruthy, evTruthy, jsTypeofObject, isArrayV, objAssign,
    spreadInto]

example : mergeErrors []
    (some (.obj [("root", .obj [("serverError", .obj [("message", .str "boom")])])]))
    (fun n : Nat => n + 1) 0 =
    ([("root.serverError",
        .obj [("type", .str "400"), ("message", .str "boom")])], 1) := by
  simp [mergeErrors, mergeEntries, entriesOf, parseRightValue, propGet,
    lookupF, optTruthy, evTruthy, jsTypeofObject, isArrayV, objAssign,
    spreadInto]

end MergeChecks

/-- C8: if `backendErrors` is absent, `mergeErrors` returns the frontend
tree unchanged and never applies the `onMerge` callback (the returned
state is the start state); if a backend error tree (an object) is present,
the merged tree is returned and the caller's callback is applied exactly
once (the returned state is one application of `onMerge`; the recursive
inner calls of the source pass the default no-op callback). -/
theorem mergeErrors_callback_once :
    (∀ (α : Type) (f : JFields) (cb : α → α) (s : α),
       mergeErrors f none cb s = (f, s))
  ∧ (∀ (α : Type) (f bs : JFields) (cb : α → α) (s : α),
       mergeErrors f (some (.obj bs)) cb s = (mergeEntries f bs, cb s)) :=
  ⟨fun _ _ _ _ => rfl, fun _ _ _ _ _ => rfl⟩

/-- C2: an entry whose value is a non-array object lacking a `message`
property is merged recursively into the *top-level* frontend tree (first
conjunct: the processing of such an entry is a top-level merge of the
root-rule-transformed sub-tree, from source line 187).  Consequently a
nested backend sub-tree is flattened: its leaf keys become top-level keys
of the result, not keys nested under the entry's parent key (second
conjunct: merging `{k1: {k2: s}}` writes the key `k2` at the top level,
and `k1` itself is not written). -/
theorem mergeErrors_flattens_nested :
    (∀ (f : JFields) (key : String) (gs rest : JFields),
       lookupF gs "message" = none →
       mergeEntries f ((key, .obj gs) :: rest) =
         mergeEntries
           (mergeEntries f (entriesOf (parseRightValue key (.obj gs)))) rest)
  ∧ (∀ (α : Type) (f : JFields) (k1 k2 s : String) (cb : α → α) (st : α),
       k1 ≠ "root" → k2 ≠ "message" → s ≠ "" →
       mergeErrors f (some (.obj [(k1, .obj [(k2, .str s)])])) cb st =
         (objAssign f k2
           (.obj [("message", .str s), ("type", .str "custom")]), cb st)) := by
  constructor
  · intro f key gs rest h
    have hc : (jsTypeofObject (.obj gs) && !isArrayV (.obj gs) &&
        !optTruthy (propGet (.obj gs) "message")) = true := by
      simp [jsTypeofObject, isArrayV, propGet, h, optTruthy]
    rw [mergeEntries, dif_pos hc]
  · intro α f k1 k2 s cb st h1 h2 h3
    have hprv : parseRightValue k1 (.obj [(k2, .str s)]) =
        .obj [(k2, .str s)] := by
      simp [parseRightValue, h1]
    simp [mergeErrors, mergeEntries, entriesOf, hprv, jsTypeofObject,
      isArrayV, propGet, lookupF, h2, optTruthy, evTruthy]

/-- Witness for `mergeErrors_flattens_nested`: merging `{user: {name:
"Required"}}` into an empty tree gives a top-level `name` entry. -/
theorem mergeErrors_flattens_nested_witness :
    mergeErrors [] (some (.obj [("user", .obj [("name", .str "Required")])]))
      (fun n : Nat => n + 1) 0 =
      (objAssign [] "name"
        (.obj [("message", .str "Required"), ("type", .str "custom")]), 1) :=
  mergeErrors_flattens_nested.2 Nat [] "user" "name" "Required" _ 0
    (by decide) (by decide) (by decide)

/-- C1 (counterexample): when the `root` object carries both a
`serverError` and a `random` sub-field, the two rewritten entries do
*not* both appear: the `random` rewrite (the second `if` of
`parseRightValue`, lines 224-231) overwrites the `serverError` one, so
the merged output holds only `"root.random"` and no `"root.serverError"`
entry. -/
theorem mergeErrors_root_both_only_random :
    mergeErrors []
      (some (.obj [("root", .obj
        [("serverError", .obj [("message", .str "a")]),
         ("random", .obj [("message", .str "b")])])]))
      (fun n : Nat => n + 1) 0 =
      ([("root.random",
          .obj [("type", .str "random"), ("message", .str "b")])], 1)
    ∧ lookupF [("root.random",
        JSVal.obj [("type", .str "random"), ("message", .str "b")])]
        "root.serverError" = none := by
  constructor
  · simp [mergeErrors, mergeEntries, entriesOf, parseRightValue, propGet,
      lookupF, optTruthy, evTruthy, jsTypeofObject, isArrayV, objAssign,
      spreadInto]
  · rfl

theorem lookupF_objAssign (fs : JFields) (k k2 : String) (v : JSVal) :
    lookupF (objAssign fs k v) k2 =
      if k = k2 then some v else lookupF fs k2 := by
  induction fs with
  | nil => simp [objAssign, lookupF]
  | cons p rest ih =>
    obtain ⟨pk, pv⟩ := p
    by_cases hpk : pk = k <;> by_cases hk2 : k = k2 <;>
      simp_all [objAssign, lookupF]

theorem lookupF_append (l1 l2 : JFields) (k : String) :
    lookupF (l1 ++ l2) k = (lookupF l1 k).or (lookupF l2 k) := by
  induction l1 with
  | nil => simp [lookupF]
  | cons p rest ih =>
    obtain ⟨pk, pv⟩ := p
    by_cases h : pk = k <;> simp_all [lookupF]

/-- Lookup of the *last* occurrence of a key (object-spread semantics:
later entries overwrite earlier ones). -/
def lookupLast (fs : JFields) (k : String) : Option JSVal :=
  lookupF fs.reverse k

theorem lookupLast_cons (p : String × JSVal) (rest : JFields) (k : String) :
    lookupLast (p :: rest) k =
      (lookupLast rest k).or (if p.1 = k then some p.2 else none) := by
  simp only [lookupLast, List.reverse_cons, lookupF_append]
  by_cases h : p.1 = k <;> simp [lookupF, h]

theorem lookupF_foldl_objAssign (l : JFields) :
    ∀ (init : JFields) (k : String),
      lookupF (l.foldl (fun acc p => objAssign acc p.1 p.2) init) k =
        (lookupLast l k).or (lookupF init k) := by
  induction l with
  | nil => intro init k; simp [lookupLast, lookupF]
  | cons p rest ih =>
    intro init k
    rw [List.foldl_cons, ih, lookupF_objAssign, lookupLast_cons]
    by_cases hpk : p.1 = k <;> cases hlast : lookupLast rest k <;>
      simp [hpk, Option.or]

theorem lookupF_spreadInto (w : JSVal) (init : JFields) (k : String) :
    lookupF (spreadInto init w) k =
      (lookupLast (entriesOf w) k).or (lookupF init k) :=
  lookupF_foldl_objAssign (entriesOf w) init k

theorem lookupF_eq_none_of_not_mem {fs : JFields} {k : String}
    (h : k ∉ fs.map Prod.fst) : lookupF fs k = none := by
  induction fs with
  | nil => rfl
  | cons p rest ih =>
    simp only [List.map_cons, List.mem_cons] at h
    push_neg at h
    simp only [lookupF]
    rw [if_neg (fun he => h.1 he.symm)]
    exact ih h.2

theorem not_mem_of_lookupF_eq_none {fs : JFields} {k : String}
    (h : lookupF fs k = none) : k ∉ fs.map Prod.fst := by
  induction fs with
  | nil => simp
  | cons p rest ih =>
    simp only [lookupF] at h
    split at h
    · exact absurd h (by simp)
    · next hne =>
      simp only [List.map_cons, List.mem_cons]
      push_neg
      exact ⟨fun he => hne he.symm, ih h⟩

theorem lookupLast_eq_lookupF {fs : JFields}
    (h : (fs.map Prod.fst).Nodup) (k : String) :
    lookupLast fs k = lookupF fs k := by
  induction fs with
  | nil => rfl
  | cons p rest ih =>
    simp only [List.map_cons, List.nodup_cons] at h
    obtain ⟨hnotin, hnd⟩ := h
    rw [lookupLast_cons, ih hnd]
    by_cases hpk : p.1 = k
    · subst hpk
      rw [lookupF_eq_none_of_not_mem hnotin]
      simp [lookupF]
    · simp [lookupF, hpk]

theorem lookupLast_eq_none_of_lookupF {fs : JFields} {k : String}
    (h : lookupF fs k = none) : lookupLast fs k = none := by
  apply lookupF_eq_none_of_not_mem
  intro hmem
  exact not_mem_of_lookupF_eq_none h (by simpa using hmem)

theorem mem_keys_objAssign {fs : JFields} {k k2 : String} {v : JSVal}
    (h : k2 ∈ (objAssign fs k v).map Prod.fst) :
    k2 ∈ fs.map Prod.fst ∨ k2 = k := by
  induction fs with
  | nil => simpa [objAssign] using h
  | cons p rest ih =>
    simp only [objAssign] at h
    split at h
    · next heq => left; simpa [← heq] using h
    · simp only [List.map_cons, List.mem_cons] at h ⊢
      rcases h with h | h
      · exact Or.inl (Or.inl h)
      · rcases ih h with h' | h'
        · exact Or.inl (Or.inr h')
        · exact Or.inr h'

theorem nodupKeys_objAssign {fs : JFields} (k : String) (v : JSVal)
    (h : (fs.map Prod.fst).Nodup) : ((objAssign fs k v).map Prod.fst).Nodup := by
  induction fs with
  | nil => simp [objAssign]
  | cons p rest ih =>
    simp only [List.map_cons, List.nodup_cons] at h
    obtain ⟨hnotin, hnd⟩ := h
    simp only [objAssign]
    split
    · simp only [List.map_cons, List.nodup_cons]
      exact ⟨fun hmem => hnotin hmem, hnd⟩
    · next hne =>
      simp only [List.map_cons, List.nodup_cons]
      refine ⟨fun hmem => ?_, ih hnd⟩
      rcases mem_keys_objAssign hmem with h' | h'
      · exact hnotin h'
      · exact hne h'

theorem nodupKeys_foldl_objAssign (l : JFields) :
    ∀ (init : JFields), ((init.map Prod.fst).Nodup) →
      ((l.foldl (fun acc p => objAssign acc p.1 p.2) init).map Prod.fst).Nodup := by
  induction l with
  | nil => intro init h; exact h
  | cons p rest ih =>
    intro init h
    exact ih _ (nodupKeys_objAssign p.1 p.2 h)

theorem lookupF_spread_type (t : String) {ws : JFields}
    (hnd : (ws.map Prod.fst).Nodup) (k : String) :
    lookupF (spreadInto [("type", JSVal.str t)] (.obj ws)) k =
      (lookupF ws k).or (lookupF [("type", JSVal.str t)] k) := by
  rw [lookupF_spreadInto,
    show entriesOf (JSVal.obj ws) = ws from rfl, lookupLast_eq_lookupF hnd]

/-- One merge step on a single-entry work-list whose object value carries
a truthy `message`: branch 2 of the loop writes `{type: "custom",
...value}` under the entry's key. -/
theorem mergeEntries_single_message (f : JFields) (k : String) (xf : JFields)
    (m : JSVal) (hmsg : lookupF xf "message" = some m)
    (hmt : evTruthy m = true) :
    mergeEntries f [(k, .obj xf)] =
      objAssign f k
        (.obj (spreadInto [("type", JSVal.str "custom")] (.obj xf))) := by
  have hc2 : optTruthy (propGet (JSVal.obj xf) "message") = true := by
    simp [propGet, hmsg, optTruthy, hmt]
  have hc1 : ¬ ((jsTypeofObject (.obj xf) && !isArrayV (.obj xf) &&
      !optTruthy (propGet (.obj xf) "message")) = true) := by
    simp [jsTypeofObject, isArrayV, hc2]
  rw [mergeEntries, dif_neg hc1, dif_pos hc2, mergeEntries]

theorem prv_root_serverError {gs ws : JFields}
    (hgr : optTruthy (lookupF gs "random") = false)
    (hgs : lookupF gs "serverError" = some (.obj ws)) :
    parseRightValue "root" (.obj gs) =
      .obj [("root.serverError",
        .obj (spreadInto [("type", JSVal.str "400")] (.obj ws)))] := by
  unfold parseRightValue
  rw [if_pos rfl, if_neg (by simp [propGet, hgr]),
    if_pos (by simp [propGet, hgs, optTruthy, evTruthy])]
  simp [propGet, hgs]

theorem prv_root_random {gs rs : JFields}
    (hgr : lookupF gs "random" = some (.obj rs)) :
    parseRightValue "root" (.obj gs) =
      .obj [("root.random",
        .obj (spreadInto [("type", JSVal.str "random")] (.obj rs)))] := by
  unfold parseRightValue
  rw [if_pos rfl, if_pos (by simp [propGet, hgr, optTruthy, evTruthy])]
  simp [propGet, hgr]

/-- C1 (amended): the `root` rewrite as the code actually performs it.
First conjunct: with a truthy `serverError` sub-field (an object whose
`message` is truthy) and no truthy `random` sub-field, the merged output
gains the single entry `"root.serverError"` holding `{type: "custom",
...{type: "400", ...serverError}}`; every other sub-field of `root` is
dropped.  Second conjunct: when a truthy `random` sub-field is present as
well, the `random` rewrite overwrites the `serverError` one and only
`"root.random"` (with type `"random"`) is written.  Third conjunct: the
rewritten node's `type` is `"400"` whenever the `serverError` sub-field
itself carries no `type` field. -/
theorem mergeErrors_root_rewrite :
    (∀ (α : Type) (f : JFields) (gs ws : JFields) (m : JSVal) (cb : α → α)
       (st : α),
       optTruthy (lookupF gs "message") = false →
       optTruthy (lookupF gs "random") = false →
       lookupF gs "serverError" = some (.obj ws) →
       (ws.map Prod.fst).Nodup →
       lookupF ws "message" = some m → evTruthy m = true →
       mergeErrors f (some (.obj [("root", .obj gs)])) cb st =
         (objAssign f "root.serverError"
           (.obj (spreadInto [("type", JSVal.str "custom")]
             (.obj (spreadInto [("type", JSVal.str "400")] (.obj ws))))),
          cb st))
  ∧ (∀ (α : Type) (f : JFields) (gs rs : JFields) (sv m : JSVal) (cb : α → α)
       (st : α),
       optTruthy (lookupF gs "message") = false →
       lookupF gs "serverError" = some sv → evTruthy sv = true →
       lookupF gs "random" = some (.obj rs) →
       (rs.map Prod.fst).Nodup →
       lookupF rs "message" = some m → evTruthy m = true →
       mergeErrors f (some (.obj [("root", .obj gs)])) cb st =
         (objAssign f "root.random"
           (.obj (spreadInto [("type", JSVal.str "custom")]
             (.obj (spreadInto [("type", JSVal.str "random")] (.obj rs))))),
          cb st))
  ∧ (∀ (ws : JFields), (ws.map Prod.fst).Nodup →
       lookupF ws "type" = none →
       lookupF (spreadInto [("type", JSVal.str "custom")]
         (.obj (spreadInto [("type", JSVal.str "400")] (.obj ws)))) "type" =
         some (.str "400")) := by
  refine ⟨?_, ?_, ?_⟩
  · intro α f gs ws m cb st hgm hgr hgs hnd hm hmt
    have hXmsg : lookupF (spreadInto [("type", JSVal.str "400")] (.obj ws))
        "message" = some m := by
      rw [lookupF_spread_type "400" hnd, hm]; rfl
    have hc1 : (jsTypeofObject (.obj gs) && !isArrayV (.obj gs) &&
        !optTruthy (propGet (.obj gs) "message")) = true := by
      simp [jsTypeofObject, isArrayV, propGet, hgm]
    have hstart : mergeErrors f (some (.obj [("root", .obj gs)])) cb st =
        (mergeEntries f [("root", .obj gs)], cb st) := rfl
    have hmain : mergeEntries f [("root", .obj gs)] =
        objAssign f "root.serverError"
          (.obj (spreadInto [("type", JSVal.str "custom")]
            (.obj (spreadInto [("type", JSVal.str "400")] (.obj ws))))) := by
      rw [mergeEntries, dif_pos hc1, prv_root_serverError hgr hgs]
      simp only [entriesOf]
      rw [mergeEntries_single_message f "root.serverError" _ m hXmsg hmt,
        mergeEntries]
    rw [hstart, hmain]
  · intro α f gs rs sv m cb st hgm hgs hsvt hgr hnd hm hmt
    have hXmsg : lookupF (spreadInto [("type", JSVal.str "random")] (.obj rs))
        "message" = some m := by
      rw [lookupF_spread_type "random" hnd, hm]; rfl
    have hc1 : (jsTypeofObject (.obj gs) && !isArrayV (.obj gs) &&
        !optTruthy (propGet (.obj gs) "message")) = true := by
      simp [jsTypeofObject, isArrayV, propGet, hgm]
    have hstart : mergeErrors f (some (.obj [("root", .obj gs)])) cb st =
        (mergeEntries f [("root", .obj gs)], cb st) := rfl
    have hmain : mergeEntries f [("root", .obj gs)] =
        objAssign f "root.random"
          (.obj (spreadInto [("type", JSVal.str "custom")]
            (.obj (spreadInto [("type", JSVal.str "random")] (.obj rs))))) := by
      rw [mergeEntries, dif_pos hc1, prv_root_random hgr]
      simp only [entriesOf]
      rw [mergeEntries_single_message f "root.random" _ m hXmsg hmt,
        mergeEntries]
    rw [hstart, hmain]
  · intro ws hnd hty
    have hnd2 : ((spreadInto [("type", JSVal.str "400")] (.obj ws)).map
        Prod.fst).Nodup :=
      nodupKeys_foldl_objAssign (entriesOf (.obj ws))
        [("type", JSVal.str "400")] (by simp)
    rw [lookupF_spreadInto,
      show entriesOf (JSVal.obj (spreadInto [("type", JSVal.str "400")]
        (.obj ws))) = spreadInto [("type", JSVal.str "400")] (.obj ws) from rfl,
      lookupLast_eq_lookupF hnd2, lookupF_spread_type "400" hnd, hty]
    rfl

/-- Witness for `mergeErrors_root_rewrite`: the spec's own example
`mergeErrors({}, {root: {serverError: {message: "boom"}}})`. -/
theorem mergeErrors_root_rewrite_witness :
    mergeErrors []
      (some (.obj [("root",
        .obj [("serverError", .obj [("message", .str "boom")])])]))
      (fun n : Nat => n + 1) 0 =
      (objAssign [] "root.serverError"
        (.obj (spreadInto [("type", JSVal.str "custom")]
          (.obj (spreadInto [("type", JSVal.str "400")]
            (.obj [("message", .str "boom")]))))), 1) :=
  mergeErrors_root_rewrite.1 Nat [] [("serverError",
      .obj [("message", .str "boom")])] [("message", .str "boom")]
    (.str "boom") _ 0 rfl rfl rfl (by simp) rfl rfl

/-! ## A model of the platform's JSON serialization

`createFormData` and `parseFormData` delegate to the host's
`JSON.stringify`/`JSON.parse`.  The following is a model of that pair on
the JSON fragment generated by `JSVal`: numbers are integers (float
formatting is outside the embedding), strings are escaped exactly as
ECMA-262's `QuoteJSONString` does for code points (surrogate-pair
handling does not arise because `Char` has no lone surrogates), and the
printer emits no whitespace, while the parser accepts the printer's
output and rejects malformed text. -/

/-- The decimal digit character for `d < 10` (clamped at `'9'`). -/
def digitOfNat (d : Nat) : Char :=
  match d with
  | 0 => '0' | 1 => '1' | 2 => '2' | 3 => '3' | 4 => '4'
  | 5 => '5' | 6 => '6' | 7 => '7' | 8 => '8' | _ => '9'

theorem digitOfNat_spec : ∀ d, d < 10 → ((digitOfNat d).isDigit = true ∧
    (digitOfNat d).toNat - 48 = d ∧ (d ≠ 0 → digitOfNat d ≠ '0')) := by decide

/-- Decimal digits of `n`, most significant first, in front of `acc`. -/
def natCharsAux (n : Nat) (acc : List Char) : List Char :=
  if n < 10 then digitOfNat n :: acc
  else natCharsAux (n / 10) (digitOfNat (n % 10) :: acc)
termination_by n
decreasing_by exact Nat.div_lt_self (by omega) (by omega)

/-- Decimal representation of a natural number. -/
def natChars (n : Nat) : List Char := natCharsAux n []

theorem natCharsAux_eq (n : Nat) :
    ∀ acc, natCharsAux n acc = natChars n ++ acc := by
  induction n using Nat.strong_induction_on with
  | _ n ih =>
    intro acc
    by_cases h : n < 10
    · rw [natCharsAux, if_pos h, natChars, natCharsAux, if_pos h]
      rfl
    · have hlt : n / 10 < n := Nat.div_lt_self (by omega) (by omega)
      have hsplit : natChars n = natChars (n / 10) ++ [digitOfNat (n % 10)] := by
        rw [natChars, natCharsAux, if_neg h, ih (n / 10) hlt]
      rw [natCharsAux, if_neg h, ih (n / 10) hlt, hsplit]
      simp

theorem natChars_split {n : Nat} (h : ¬ n < 10) :
    natChars n = natChars (n / 10) ++ [digitOfNat (n % 10)] := by
  rw [natChars, natCharsAux, if_neg h,
    natCharsAux_eq (n / 10) [digitOfNat (n % 10)]]

theorem natChars_all_digits (n : Nat) :
    (natChars n).all Char.isDigit = true := by
  induction n using Nat.strong_induction_on with
  | _ n ih =>
    by_cases h : n < 10
    · rw [natChars, natCharsAux, if_pos h]
      simp [(digitOfNat_spec n h).1]
    · rw [natChars_split h]
      simp only [List.all_append, Bool.and_eq_true]
      refine ⟨ih (n / 10) (Nat.div_lt_self (by omega) (by omega)), ?_⟩
      simp [(digitOfNat_spec (n % 10) (by omega)).1]

theorem natChars_ne_nil (n : Nat) : natChars n ≠ [] := by
  by_cases h : n < 10
  · rw [natChars, natCharsAux, if_pos h]; simp
  · rw [natChars_split h]; simp

theorem natChars_head_ne_zero {n : Nat} (hn : n ≠ 0) :
    ∀ d ds, natChars n = d :: ds → d ≠ '0' := by
  induction n using Nat.strong_induction_on with
  | _ n ih =>
    intro d ds hsplit
    by_cases h : n < 10
    · rw [natChars, natCharsAux, if_pos h] at hsplit
      injection hsplit with h1 _
      subst h1
      exact (digitOfNat_spec n h).2.2 hn
    · rw [natChars_split h] at hsplit
      have h10 : n / 10 ≠ 0 := by omega
      cases hsub : natChars (n / 10) with
      | nil => exact absurd hsub (natChars_ne_nil _)
      | cons d0 ds0 =>
        rw [hsub, List.cons_append] at hsplit
        injection hsplit with h1 _
        subst h1
        exact ih (n / 10) (Nat.div_lt_self (by omega) (by omega)) h10 d0 ds0 hsub

theorem digitsToNat_append (l : List Char) (c : Char) :
    digitsToNat (l ++ [c]) = 10 * digitsToNat l + (c.toNat - 48) := by
  simp [digitsToNat, List.foldl_append]

theorem digitsToNat_natChars (n : Nat) : digitsToNat (natChars n) = n := by
  induction n using Nat.strong_induction_on with
  | _ n ih =>
    by_cases h : n < 10
    · rw [natChars, natCharsAux, if_pos h]
      have := (digitOfNat_spec n h).2.1
      simp [digitsToNat]
      omega
    · rw [natChars_split h, digitsToNat_append,
        ih (n / 10) (Nat.div_lt_self (by omega) (by omega))]
      have := (digitOfNat_spec (n % 10) (by omega)).2.1
      omega

/-- Lower-case hexadecimal digit for `d < 16` (clamped at `'f'`). -/
def hexDigitChar (d : Nat) : Char :=
  match d with
  | 0 => '0' | 1 => '1' | 2 => '2' | 3 => '3' | 4 => '4' | 5 => '5'
  | 6 => '6' | 7 => '7' | 8 => '8' | 9 => '9' | 10 => 'a' | 11 => 'b'
  | 12 => 'c' | 13 => 'd' | 14 => 'e' | _ => 'f'

/-- Value of a hexadecimal digit character (upper or lower case). -/
def hexVal (c : Char) : Option Nat :=
  if 48 ≤ c.toNat ∧ c.toNat ≤ 57 then some (c.toNat - 48)
  else if 97 ≤ c.toNat ∧ c.toNat ≤ 102 then some (c.toNat - 87)
  else if 65 ≤ c.toNat ∧ c.toNat ≤ 70 then some (c.toNat - 55)
  else none

theorem hexVal_hexDigitChar : ∀ d, d < 16 → hexVal (hexDigitChar d) = some d := by
  decide

/-- `QuoteJSONString`'s escaping of one code point: `"` and `\` are
backslash-escaped, the five control shortcuts `\b \t \n \f \r` are used,
any other code point below `0x20` becomes `\u00xx`, everything else is
emitted verbatim. -/
def escapeChar (c : Char) : List Char :=
  if c = '"' then ['\\', '"']
  else if c = '\\' then ['\\', '\\']
  else if c = '\x08' then ['\\', 'b']
  else if c = '\x09' then ['\\', 't']
  else if c = '\x0a' then ['\\', 'n']
  else if c = '\x0c' then ['\\', 'f']
  else if c = '\x0d' then ['\\', 'r']
  else if c.toNat < 32 then
    ['\\', 'u', '0', '0', hexDigitChar (c.toNat / 16), hexDigitChar (c.toNat % 16)]
  else [c]

/-- Escape a whole character list. -/
def escChars (l : List Char) : List Char :=
  l.foldr (fun c acc => escapeChar c ++ acc) []

/-- A JSON string literal: quote, escaped contents, quote. -/
def jsonQuote (s : String) : List Char := '"' :: (escChars s.data ++ ['"'])

/-- The single-character escapes accepted after a backslash by
`JSON.parse`. -/
def unescape : Char → Option Char
  | '"' => some '"'
  | '\\' => some '\\'
  | '/' => some '/'
  | 'b' => some '\x08'
  | 'f' => some '\x0c'
  | 'n' => some '\x0a'
  | 'r' => some '\x0d'
  | 't' => some '\x09'
  | _ => none

/-- Parse the contents of a JSON string literal up to (and consuming) the
closing quote.  Raw control characters are rejected, `\uXXXX` escapes are
decoded (surrogate pairs are not combined; the printer never emits
them). -/
def parseStrChars : List Char → Option (List Char × List Char)
  | [] => none
  | '"' :: rest => some ([], rest)
  | '\\' :: 'u' :: h1 :: h2 :: h3 :: h4 :: rest =>
      match hexVal h1, hexVal h2, hexVal h3, hexVal h4 with
      | some x1, some x2, some x3, some x4 =>
          (parseStrChars rest).map
            (fun p => (Char.ofNat (((x1 * 16 + x2) * 16 + x3) * 16 + x4) :: p.1,
              p.2))
      | _, _, _, _ => none
  | '\\' :: e :: rest =>
      match unescape e with
      | some c => (parseStrChars rest).map (fun p => (c :: p.1, p.2))
      | none => none
  | c :: rest =>
      if c.toNat < 32 then none
      else (parseStrChars rest).map (fun p => (c :: p.1, p.2))

theorem parseStrChars_escape (l : List Char) :
    ∀ tail, parseStrChars (escChars l ++ '"' :: tail) = some (l, tail) := by
  induction l with
  | nil => intro tail; rfl
  | cons c rest ih =>
    intro tail
    have hesc : escChars (c :: rest) = escapeChar c ++ escChars rest := rfl
    rw [hesc, List.append_assoc]
    by_cases h1 : c = '"'
    · subst h1
      rw [show escapeChar '"' = ['\\', '"'] from rfl]
      simp [parseStrChars, unescape, ih]
    · by_cases h2 : c = '\\'
      · subst h2
        rw [show escapeChar '\\' = ['\\', '\\'] from rfl]
        simp [parseStrChars, unescape, ih]
      · by_cases h3 : c = '\x08'
        · subst h3
          rw [show escapeChar '\x08' = ['\\', 'b'] from rfl]
          simp [parseStrChars, unescape, ih]
        · by_cases h4 : c = '\x09'
          · subst h4
            rw [show escapeChar '\x09' = ['\\', 't'] from rfl]
            simp [parseStrChars, unescape, ih]
          · by_cases h5 : c = '\x0a'
            · subst h5
              rw [show escapeChar '\x0a' = ['\\', 'n'] from rfl]
              simp [parseStrChars, unescape, ih]
            · by_cases h6 : c = '\x0c'
              · subst h6
                rw [show escapeChar '\x0c' = ['\\', 'f'] from rfl]
                simp [parseStrChars, unescape, ih]
              · by_cases h7 : c = '\x0d'
                · subst h7
                  rw [show escapeChar '\x0d' = ['\\', 'r'] from rfl]
                  simp [parseStrChars, unescape, ih]
                · by_cases h8 : c.toNat < 32
                  · rw [show escapeChar c =
                      ['\\', 'u', '0', '0', hexDigitChar (c.toNat / 16),
                        hexDigitChar (c.toNat % 16)] by
                      rw [escapeChar, if_neg h1, if_neg h2, if_neg h3,
                        if_neg h4, if_neg h5, if_neg h6, if_neg h7, if_pos h8]]
                    have hx1 : hexVal '0' = some 0 := by decide
                    have hx3 : hexVal (hexDigitChar (c.toNat / 16)) =
                        some (c.toNat / 16) :=
                      hexVal_hexDigitChar _ (by omega)
                    have hx4 : hexVal (hexDigitChar (c.toNat % 16)) =
                        some (c.toNat % 16) :=
                      hexVal_hexDigitChar _ (by omega)
                    have hval : ((0 * 16 + 0) * 16 + c.toNat / 16) * 16 +
                        c.toNat % 16 = c.toNat := by omega
                    simp [parseStrChars, hx1, hx3, hx4, ih]
                    rw [show c.toNat / 16 * 16 + c.toNat % 16 = c.toNat by
                      omega, Char.ofNat_toNat]
                  · rw [show escapeChar c = [c] by
                      rw [escapeChar, if_neg h1, if_neg h2, if_neg h3,
                        if_neg h4, if_neg h5, if_neg h6, if_neg h7, if_neg h8]]
                    simp [parseStrChars, h1, h2, h8, ih]

/-- Does the input *not* begin with a decimal digit?  (Guard for greedy
number parsing.) -/
def headNotDigit : List Char → Bool
  | [] => true
  | c :: _ => !c.isDigit

theorem takeWhile_digits_append {l rest : List Char}
    (hall : l.all Char.isDigit = true) (hrest : headNotDigit rest = true) :
    (l ++ rest).takeWhile Char.isDigit = l ∧
    (l ++ rest).dropWhile Char.isDigit = rest := by
  induction l with
  | nil =>
    cases rest with
    | nil => simp [List.takeWhile, List.dropWhile]
    | cons c rest2 =>
      simp only [headNotDigit, Bool.not_eq_true'] at hrest
      simp [List.takeWhile_cons, List.dropWhile_cons, hrest]
  | cons c l2 ih =>
    simp only [List.all_cons, Bool.and_eq_true] at hall
    have := ih hall.2
    simp [List.takeWhile_cons, List.dropWhile_cons, hall.1, this.1, this.2]

/-- Does a digit run have a forbidden leading zero (`"0"` alone is
allowed)? -/
def leadZero (ds : List Char) : Bool :=
  match ds with
  | d :: _ :: _ => d == '0'
  | _ => false

/-- Parse a JSON natural-number literal: one or more digits, no leading
zero (except `"0"` itself); greedy. -/
def parseNatNum (cs : List Char) : Option (Nat × List Char) :=
  match cs.takeWhile Char.isDigit with
  | [] => none
  | ds =>
      if leadZero ds then none
      else some (digitsToNat ds, cs.dropWhile Char.isDigit)

/-- Parse an (integer) JSON number literal with optional minus sign.
Fraction and exponent parts are outside the integer fragment modelled
here. -/
def parseNum : List Char → Option (Int × List Char)
  | '-' :: rest => (parseNatNum rest).map (fun p => (-(p.1 : Int), p.2))
  | cs => (parseNatNum cs).map (fun p => ((p.1 : Int), p.2))

theorem leadZero_natChars (n : Nat) : leadZero (natChars n) = false := by
  cases hsub : natChars n with
  | nil => rfl
  | cons d ds =>
    cases ds with
    | nil => rfl
    | cons d2 ds2 =>
      have hn0 : n ≠ 0 := by
        intro h0
        subst h0
        rw [show natChars 0 = ['0'] by rw [natChars, natCharsAux]; decide]
          at hsub
        exact absurd hsub (by simp)
      have hne : d ≠ '0' := natChars_head_ne_zero hn0 d (d2 :: ds2) hsub
      simp [leadZero, hne]

theorem parseNatNum_natChars (n : Nat) {rest : List Char}
    (hrest : headNotDigit rest = true) :
    parseNatNum (natChars n ++ rest) = some (n, rest) := by
  obtain ⟨ht, hd⟩ := takeWhile_digits_append (natChars_all_digits n) hrest
  rw [parseNatNum, ht, hd]
  cases hsub : natChars n with
  | nil => exact absurd hsub (natChars_ne_nil _)
  | cons d ds =>
    have hlz : leadZero (d :: ds) = false := by rw [← hsub, leadZero_natChars]
    have hval : digitsToNat (d :: ds) = n := by rw [← hsub, digitsToNat_natChars]
    simp [hlz, hval]

/-- Decimal printing of an integer (the body of `printVal` for numbers). -/
def printInt (n : Int) : List Char :=
  if n < 0 then '-' :: natChars (-n).toNat else natChars n.toNat

theorem parseNum_printInt (n : Int) {rest : List Char}
    (hrest : headNotDigit rest = true) :
    parseNum (printInt n ++ rest) = some (n, rest) := by
  by_cases hn : n < 0
  · rw [printInt, if_pos hn, List.cons_append,
      show parseNum ('-' :: (natChars (-n).toNat ++ rest)) =
        (parseNatNum (natChars (-n).toNat ++ rest)).map
          (fun p => (-(p.1 : Int), p.2)) from rfl,
      parseNatNum_natChars _ hrest]
    simp
    omega
  · rw [printInt, if_neg hn]
    have hstep : parseNum (natChars n.toNat ++ rest) =
        (parseNatNum (natChars n.toNat ++ rest)).map
          (fun p => ((p.1 : Int), p.2)) := by
      rw [parseNum.eq_def]
      split
      · next rest2 heq =>
        exfalso
        cases hsub : natChars n.toNat with
        | nil => exact natChars_ne_nil _ hsub
        | cons d ds =>
          have hdig : d.isDigit = true := by
            have hall := natChars_all_digits n.toNat
            rw [hsub] at hall
            simp only [List.all_cons, Bool.and_eq_true] at hall
            exact hall.1
          rw [hsub, List.cons_append] at heq
          injection heq with h1 _
          rw [h1] at hdig
          exact absurd hdig (by decide)
      · rfl
    rw [hstep, parseNatNum_natChars _ hrest]
    simp
    omega

mutual

/-- `JSON.stringify` on the modelled fragment: no whitespace, insertion
order, keys and strings escaped by `jsonQuote`.  Array string properties
are ignored, exactly as `JSON.stringify` ignores non-index properties of
arrays; `undefined` prints as `null` (matching its treatment as an array
element; as an object field value JS would drop the field, which is why
`serializable` excludes `undefined` entirely). -/
def printVal : JSVal → List Char
  | .null => "null".data
  | .bool true => "true".data
  | .bool false => "false".data
  | .num n => printInt n
  | .str s => jsonQuote s
  | .arr es _ => '[' :: (printElems es ++ [']'])
  | .obj fs => '{' :: (printFields fs ++ ['}'])
  | .undef => "null".data

/-- Comma-separated array elements. -/
def printElems : List JSVal → List Char
  | [] => []
  | [v] => printVal v
  | v :: rest => printVal v ++ ',' :: printElems rest

/-- Comma-separated `"key":value` members. -/
def printFields : JFields → List Char
  | [] => []
  | [(k, v)] => jsonQuote k ++ ':' :: printVal v
  | (k, v) :: rest => jsonQuote k ++ ':' :: printVal v ++ ',' :: printFields rest

end

mutual

/-- Is the value in the JSON-serializable fragment on which the
stringify/parse round-trip is exact?  Excludes `undefined` (dropped or
nulled by `JSON.stringify`) and arrays with string properties (ignored by
`JSON.stringify`). -/
def serializable : JSVal → Bool
  | .undef => false
  | .arr es ps => ps.isEmpty && serializableElems es
  | .obj fs => serializableFields fs
  | _ => true

/-- All elements serializable. -/
def serializableElems : List JSVal → Bool
  | [] => true
  | v :: rest => serializable v && serializableElems rest

/-- All field values serializable. -/
def serializableFields : JFields → Bool
  | [] => true
  | (_, v) :: rest => serializable v && serializableFields rest

end

mutual

/-- Fuel needed by the parser: one unit per container level plus one per
member/element. -/
def jsize : JSVal → Nat
  | .obj fs => 1 + jsizeFields fs
  | .arr es _ => 1 + jsizeElems es
  | _ => 1

/-- Fuel for an element list. -/
def jsizeElems : List JSVal → Nat
  | [] => 0
  | v :: rest => 1 + jsize v + jsizeElems rest

/-- Fuel for a member list. -/
def jsizeFields : JFields → Nat
  | [] => 0
  | (_, v) :: rest => 1 + jsize v + jsizeFields rest

end

mutual

/-- `JSON.parse` on the modelled fragment, fuel-indexed (the fuel bounds
the nesting/member recursion; `jsonParse` supplies enough for any input).
Accepts exactly: the three literals, string literals, integer number
literals, arrays and objects — without surrounding whitespace, matching
the output of `printVal`. -/
def parseVal : Nat → List Char → Option (JSVal × List Char)
  | 0, _ => none
  | fuel + 1, cs =>
    match cs with
    | 'n' :: 'u' :: 'l' :: 'l' :: rest => some (.null, rest)
    | 't' :: 'r' :: 'u' :: 'e' :: rest => some (.bool true, rest)
    | 'f' :: 'a' :: 'l' :: 's' :: 'e' :: rest => some (.bool false, rest)
    | '"' :: rest => (parseStrChars rest).map (fun p => (JSVal.str ⟨p.1⟩, p.2))
    | '{' :: rest =>
        (match rest with
         | '}' :: r => some (.obj [], r)
         | _ => (parseMembers fuel rest).map (fun p => (JSVal.obj p.1, p.2)))
    | '[' :: rest =>
        (match rest with
         | ']' :: r => some (.arr [] [], r)
         | _ => (parseElems fuel rest).map (fun p => (JSVal.arr p.1 [], p.2)))
    | cs2 => (parseNum cs2).map (fun p => (JSVal.num p.1, p.2))

/-- One or more `"key":value` members followed by `}`. -/
def parseMembers : Nat → List Char → Option (JFields × List Char)
  | 0, _ => none
  | fuel + 1, cs =>
    match cs with
    | '"' :: cs1 =>
      (match parseStrChars cs1 with
       | some (kchars, cs2) =>
         (match cs2 with
          | ':' :: cs3 =>
            (match parseVal fuel cs3 with
             | some (v, cs4) =>
               (match cs4 with
                | ',' :: cs5 =>
                    (parseMembers fuel cs5).map
                      (fun p => ((String.mk kchars, v) :: p.1, p.2))
                | '}' :: cs5 => some ([(String.mk kchars, v)], cs5)
                | _ => none)
             | none => none)
          | _ => none)
       | none => none)
    | _ => none

/-- One or more elements followed by `]`. -/
def parseElems : Nat → List Char → Option (List JSVal × List Char)
  | 0, _ => none
  | fuel + 1, cs =>
    match parseVal fuel cs with
    | some (v, cs2) =>
      (match cs2 with
       | ',' :: cs3 => (parseElems fuel cs3).map (fun p => (v :: p.1, p.2))
       | ']' :: cs3 => some ([v], cs3)
       | _ => none)
    | none => none

end

/-- `JSON.stringify` (on the modelled fragment). -/
def jsonStringify (v : JSVal) : String := ⟨printVal v⟩

/-- `JSON.parse` (on the modelled fragment): parse one value and require
the input to be fully consumed. -/
def jsonParse (s : String) : Option JSVal :=
  match parseVal (s.data.length + 1) s.data with
  | some (v, []) => some v
  | _ => none

theorem jsize_pos (v : JSVal) : 1 ≤ jsize v := by
  cases v <;> simp only [jsize] <;> omega

theorem jsizeFields_pos {fs : JFields} (h : fs ≠ []) : 2 ≤ jsizeFields fs := by
  cases fs with
  | nil => exact absurd rfl h
  | cons p rest =>
    obtain ⟨k, v⟩ := p
    have := jsize_pos v
    simp only [jsizeFields]
    omega

theorem jsizeElems_pos {es : List JSVal} (h : es ≠ []) : 2 ≤ jsizeElems es := by
  cases es with
  | nil => exact absurd rfl h
  | cons v rest =>
    have := jsize_pos v
    simp only [jsizeElems]
    omega

theorem jsonQuote_length (k : String) :
    (jsonQuote k).length = (escChars k.data).length + 2 := by
  simp [jsonQuote]

/-- A nonempty member list prints starting with the opening quote of its
first key. -/
theorem printFields_shape (fs : JFields) (h : fs ≠ []) :
    ∃ tl, printFields fs = '"' :: tl := by
  match fs with
  | [] => exact absurd rfl h
  | [(k, v)] =>
    refine ⟨escChars k.data ++ ['"'] ++ ':' :: printVal v, ?_⟩
    rw [printFields, jsonQuote]
    simp
  | (k, v) :: p2 :: rest =>
    refine ⟨escChars k.data ++ ['"'] ++ ':' :: (printVal v ++ ',' ::
      printFields (p2 :: rest)), ?_⟩
    rw [printFields, jsonQuote] <;> simp

theorem digit_not_special {d : Char} (h : d.isDigit = true) :
    d ≠ 'n' ∧ d ≠ 't' ∧ d ≠ 'f' ∧ d ≠ '"' ∧ d ≠ '{' ∧ d ≠ '[' ∧ d ≠ '-' ∧
    d ≠ ']' ∧ d ≠ '}' ∧ d ≠ ',' := by
  refine ⟨?_, ?_, ?_, ?_, ?_, ?_, ?_, ?_, ?_, ?_⟩ <;>
    (intro he; rw [he] at h; exact absurd h (by decide))

/-- Every printed value begins with a character that closes nothing: never
`]`, `}` or `,`. -/
theorem printVal_shape (v : JSVal) :
    ∃ c cs2, printVal v = c :: cs2 ∧ c ≠ ']' ∧ c ≠ '}' ∧ c ≠ ',' := by
  cases v with
  | null => exact ⟨'n', _, by rw [printVal], by decide, by decide, by decide⟩
  | bool b =>
    cases b
    · exact ⟨'f', _, by rw [printVal], by decide, by decide, by decide⟩
    · exact ⟨'t', _, by rw [printVal], by decide, by decide, by decide⟩
  | num n =>
    rw [printVal, printInt]
    by_cases hn : n < 0
    · exact ⟨'-', _, by rw [if_pos hn], by decide, by decide, by decide⟩
    · rw [if_neg hn]
      cases hsub : natChars n.toNat with
      | nil => exact absurd hsub (natChars_ne_nil _)
      | cons d ds =>
        have hdig : d.isDigit = true := by
          have hall := natChars_all_digits n.toNat
          rw [hsub] at hall
          simp only [List.all_cons, Bool.and_eq_true] at hall
          exact hall.1
        have hspec := digit_not_special hdig
        exact ⟨d, ds, rfl, hspec.2.2.2.2.2.2.2.1, hspec.2.2.2.2.2.2.2.2.1,
          hspec.2.2.2.2.2.2.2.2.2⟩
  | str s =>
    exact ⟨'"', _, by rw [printVal, jsonQuote], by decide, by decide, by decide⟩
  | undef => exact ⟨'n', _, by rw [printVal], by decide, by decide, by decide⟩
  | arr es ps =>
    exact ⟨'[', _, by rw [printVal], by decide, by decide, by decide⟩
  | obj fs =>
    exact ⟨'{', _, by rw [printVal], by decide, by decide, by decide⟩

/-- A nonempty element list prints starting with the head of its first
printed element. -/
theorem printElems_shape (es : List JSVal) (h : es ≠ []) :
    ∃ c tl, printElems es = c :: tl ∧ c ≠ ']' ∧ c ≠ '}' ∧ c ≠ ',' := by
  match es with
  | [] => exact absurd rfl h
  | [v] =>
    obtain ⟨c, cs2, hp, h1, h2, h3⟩ := printVal_shape v
    exact ⟨c, cs2, by rw [printElems, hp], h1, h2, h3⟩
  | v :: v2 :: rest =>
    obtain ⟨c, cs2, hp, h1, h2, h3⟩ := printVal_shape v
    refine ⟨c, cs2 ++ ',' :: printElems (v2 :: rest),
      ?_, h1, h2, h3⟩
    rw [printElems] <;> simp [hp]

theorem jsizeFields_le (fs : JFields)
    (h : ∀ p ∈ fs, jsize p.2 ≤ (printVal p.2).length) :
    jsizeFields fs ≤ (printFields fs).length + 1 := by
  match fs with
  | [] => simp [jsizeFields, printFields]
  | [(k, v)] =>
    have hv : jsize v ≤ (printVal v).length := h (k, v) (by simp)
    rw [jsizeFields, jsizeFields, printFields]
    simp only [List.length_append, List.length_cons, jsonQuote_length]
    omega
  | (k, v) :: p2 :: rest =>
    have hv : jsize v ≤ (printVal v).length := h (k, v) (by simp)
    have hrec := jsizeFields_le (p2 :: rest) (fun p hp => h p (by simp [hp]))
    rw [jsizeFields]
    rw [printFields]
    · simp only [List.length_append, List.length_cons, jsonQuote_length]
      omega
    · simp

theorem jsizeElems_le (es : List JSVal)
    (h : ∀ u ∈ es, jsize u ≤ (printVal u).length) :
    jsizeElems es ≤ (printElems es).length + 1 := by
  match es with
  | [] => simp [jsizeElems, printElems]
  | [v] =>
    have hv : jsize v ≤ (printVal v).length := h v (by simp)
    rw [jsizeElems, jsizeElems, printElems]
    omega
  | v :: v2 :: rest =>
    have hv : jsize v ≤ (printVal v).length := h v (by simp)
    have hrec := jsizeElems_le (v2 :: rest) (fun u hu => h u (by simp [hu]))
    rw [jsizeElems]
    rw [printElems]
    · simp only [List.length_append, List.length_cons]
      omega
    · simp

theorem jsize_le (v : JSVal) : jsize v ≤ (printVal v).length := by
  cases v with
  | null => simp [jsize, printVal]
  | bool b => cases b <;> simp [jsize, printVal]
  | num n =>
    have h1 : 1 ≤ (printInt n).length := by
      rw [printInt]
      split
      · simp
      · cases hsub : natChars n.toNat with
        | nil => exact absurd hsub (natChars_ne_nil _)
        | cons d ds => simp [hsub]
    simp [jsize, printVal]
    omega
  | str s =>
    simp [jsize, printVal, jsonQuote_length]
  | undef => simp [jsize, printVal]
  | arr es ps =>
    have h : ∀ u ∈ es, jsize u ≤ (printVal u).length := by
      intro u hu
      exact jsize_le u
    have := jsizeElems_le es h
    rw [jsize, printVal]
    simp only [List.length_cons, List.length_append, List.length_singleton]
    omega
  | obj fs =>
    have h : ∀ p ∈ fs, jsize p.2 ≤ (printVal p.2).length := by
      intro p hp
      exact jsize_le p.2
    have := jsizeFields_le fs h
    rw [jsize, printVal]
    simp only [List.length_cons, List.length_append, List.length_singleton]
    omega
termination_by sizeOf v
decreasing_by
  · have h1 := List.sizeOf_lt_of_mem hu
    simp only [JSVal.arr.sizeOf_spec]
    omega
  · have h1 := List.sizeOf_lt_of_mem hp
    obtain ⟨k2, v2⟩ := p
    simp only [JSVal.obj.sizeOf_spec, Prod.mk.sizeOf_spec] at *
    omega

theorem parseVal_succ_quote (fuel : Nat) (l : List Char) :
    parseVal (fuel + 1) ('"' :: l) =
      (parseStrChars l).map (fun p => (JSVal.str ⟨p.1⟩, p.2)) := rfl

theorem parseVal_succ_brace (fuel : Nat) (l : List Char) :
    parseVal (fuel + 1) ('{' :: l) =
      (match l with
       | '}' :: r => some (.obj [], r)
       | _ => (parseMembers fuel l).map (fun p => (JSVal.obj p.1, p.2))) := rfl

theorem parseVal_succ_bracket (fuel : Nat) (l : List Char) :
    parseVal (fuel + 1) ('[' :: l) =
      (match l with
       | ']' :: r => some (.arr [] [], r)
       | _ => (parseElems fuel l).map (fun p => (JSVal.arr p.1 [], p.2))) := rfl

theorem parseMembers_succ (fuel : Nat) (l : List Char) :
    parseMembers (fuel + 1) ('"' :: l) =
      (match parseStrChars l with
       | some (kchars, cs2) =>
         (match cs2 with
          | ':' :: cs3 =>
            (match parseVal fuel cs3 with
             | some (v, cs4) =>
               (match cs4 with
                | ',' :: cs5 =>
                    (parseMembers fuel cs5).map
                      (fun p => ((String.mk kchars, v) :: p.1, p.2))
                | '}' :: cs5 => some ([(String.mk kchars, v)], cs5)
                | _ => none)
             | none => none)
          | _ => none)
       | none => none) := rfl

theorem parseElems_succ (fuel : Nat) (cs : List Char) :
    parseElems (fuel + 1) cs =
      (match parseVal fuel cs with
       | some (v, cs2) =>
         (match cs2 with
          | ',' :: cs3 => (parseElems fuel cs3).map (fun p => (v :: p.1, p.2))
          | ']' :: cs3 => some ([v], cs3)
          | _ => none)
       | none => none) := rfl

theorem parseVal_succ_num (fuel : Nat) (n : Int) (rest : List Char)
    (hrest : headNotDigit rest = true) :
    parseVal (fuel + 1) (printInt n ++ rest) = some (.num n, rest) := by
  by_cases hn : n < 0
  · have hshape : printInt n ++ rest = '-' :: (natChars (-n).toNat ++ rest) := by
      rw [printInt, if_pos hn, List.cons_append]
    rw [hshape,
      show parseVal (fuel + 1) ('-' :: (natChars (-n).toNat ++ rest)) =
        (parseNum ('-' :: (natChars (-n).toNat ++ rest))).map
          (fun p => (JSVal.num p.1, p.2)) from rfl,
      ← hshape, parseNum_printInt n hrest]
    rfl
  · rw [printInt, if_neg hn]
    cases hsub : natChars n.toNat with
    | nil => exact absurd hsub (natChars_ne_nil _)
    | cons d ds =>
      have hdig : d.isDigit = true := by
        have hall := natChars_all_digits n.toNat
        rw [hsub] at hall
        simp only [List.all_cons, Bool.and_eq_true] at hall
        exact hall.1
      obtain ⟨hn1, hn2, hn3, hn4, hn5, hn6, hn7, hn8, hn9, hn10⟩ :=
        digit_not_special hdig
      rw [List.cons_append]
      have hcatch : parseVal (fuel + 1) (d :: (ds ++ rest)) =
          (parseNum (d :: (ds ++ rest))).map
            (fun p => (JSVal.num p.1, p.2)) := by
        rw [parseVal.eq_def]
        split
        all_goals first | rfl | simp_all
      rw [hcatch,
        show d :: (ds ++ rest) = natChars n.toNat ++ rest by rw [hsub]; rfl,
        show natChars n.toNat ++ rest = printInt n ++ rest by
          rw [printInt, if_neg hn],
        parseNum_printInt n hrest]
      rfl

theorem parseMembers_succ_last (fuel : Nat) (k : String)
    (pv rest : List Char) (v : JSVal)
    (hval : parseVal fuel (pv ++ '}' :: rest) = some (v, '}' :: rest)) :
    parseMembers (fuel + 1)
      ('"' :: (escChars k.data ++ ('"' :: (':' :: (pv ++ '}' :: rest))))) =
      some ([(k, v)], rest) := by
  rw [parseMembers_succ, parseStrChars_escape k.data]
  simp only [hval]

theorem parseMembers_succ_more (fuel : Nat) (k : String)
    (pv tail2 : List Char) (v : JSVal)
    (hval : parseVal fuel (pv ++ ',' :: tail2) = some (v, ',' :: tail2)) :
    parseMembers (fuel + 1)
      ('"' :: (escChars k.data ++ ('"' :: (':' :: (pv ++ ',' :: tail2))))) =
      (parseMembers fuel tail2).map (fun p => ((k, v) :: p.1, p.2)) := by
  rw [parseMembers_succ, parseStrChars_escape k.data]
  simp only [hval]

theorem parseElems_succ_last (fuel : Nat) (pv rest : List Char) (v : JSVal)
    (hval : parseVal fuel (pv ++ ']' :: rest) = some (v, ']' :: rest)) :
    parseElems (fuel + 1) (pv ++ ']' :: rest) = some ([v], rest) := by
  rw [parseElems_succ]
  simp only [hval]

theorem parseElems_succ_more (fuel : Nat) (pv tail2 : List Char) (v : JSVal)
    (hval : parseVal fuel (pv ++ ',' :: tail2) = some (v, ',' :: tail2)) :
    parseElems (fuel + 1) (pv ++ ',' :: tail2) =
      (parseElems fuel tail2).map (fun p => (v :: p.1, p.2)) := by
  rw [parseElems_succ]
  simp only [hval]

/-- Round-trip of the JSON printer and parser, by induction on the parsing
fuel: with enough fuel, parsing the printed form of a serializable value
(member list, element list) consumes exactly it and returns it. -/
theorem parse_print_rt (fuel : Nat) :
    (∀ (v : JSVal) (rest : List Char), serializable v = true →
       jsize v ≤ fuel → headNotDigit rest = true →
       parseVal fuel (printVal v ++ rest) = some (v, rest))
  ∧ (∀ (fs : JFields) (rest : List Char), fs ≠ [] →
       serializableFields fs = true → jsizeFields fs ≤ fuel →
       parseMembers fuel (printFields fs ++ '}' :: rest) = some (fs, rest))
  ∧ (∀ (es : List JSVal) (rest : List Char), es ≠ [] →
       serializableElems es = true → jsizeElems es ≤ fuel →
       parseElems fuel (printElems es ++ ']' :: rest) = some (es, rest)) := by
  induction fuel with
  | zero =>
    refine ⟨?_, ?_, ?_⟩
    · intro v rest _ hsz _
      have := jsize_pos v
      omega
    · intro fs rest hne _ hsz
      have := jsizeFields_pos hne
      omega
    · intro es rest hne _ hsz
      have := jsizeElems_pos hne
      omega
  | succ fuel ih =>
    obtain ⟨ihP, ihQ, ihR⟩ := ih
    refine ⟨?_, ?_, ?_⟩
    · intro v rest hser hsz hrest
      cases v with
      | null =>
        rw [show printVal .null = "null".data by rw [printVal]]
        rfl
      | bool b =>
        cases b
        · rw [show printVal (.bool false) = "false".data by
            rw [printVal]]
          rfl
        · rw [show printVal (.bool true) = "true".data by
            rw [printVal]]
          rfl
      | num n =>
        rw [show printVal (.num n) = printInt n by rw [printVal]]
        exact parseVal_succ_num fuel n rest hrest
      | str s =>
        rw [show printVal (.str s) = '"' :: (escChars s.data ++ ['"']) by
            rw [printVal, jsonQuote],
          List.cons_append, List.append_assoc, parseVal_succ_quote,
          show (['"'] ++ rest : List Char) = '"' :: rest from rfl,
          parseStrChars_escape]
        try simp only [Option.map_some']
        try rfl
      | undef =>
        rw [serializable] at hser
        exact Bool.noConfusion hser
      | arr es ps =>
        rw [serializable] at hser
        simp only [Bool.and_eq_true, List.isEmpty_iff] at hser
        obtain ⟨hps, hels⟩ := hser
        subst hps
        rw [show printVal (.arr es []) = '[' :: (printElems es ++ [']']) by
            rw [printVal],
          List.cons_append, List.append_assoc, parseVal_succ_bracket,
          show (([']'] ++ rest : List Char)) = ']' :: rest from rfl]
        cases es with
        | nil =>
          rw [show printElems ([] : List JSVal) = [] by rw [printElems]]
          rfl
        | cons v0 es2 =>
          obtain ⟨c0, tl, hpe, hc1, hc2, hc3⟩ :=
            printElems_shape (v0 :: es2) (by simp)
          rw [hpe, List.cons_append]
          split
          · next r heq =>
            exfalso
            injection heq with he1 _
            exact hc1 he1
          · rw [← List.cons_append, ← hpe]
            have hsz2 : jsizeElems (v0 :: es2) ≤ fuel := by
              rw [jsize] at hsz
              omega
            rw [ihR (v0 :: es2) rest (by simp) hels hsz2]
            rfl
      | obj fs =>
        rw [serializable] at hser
        rw [show printVal (.obj fs) = '{' :: (printFields fs ++ ['}']) by
            rw [printVal],
          List.cons_append, List.append_assoc, parseVal_succ_brace,
          show (['}'] ++ rest : List Char) = '}' :: rest from rfl]
        cases fs with
        | nil =>
          rw [show printFields ([] : JFields) = [] by rw [printFields]]
          rfl
        | cons p0 fs2 =>
          obtain ⟨tl, hpf⟩ := printFields_shape (p0 :: fs2) (by simp)
          rw [hpf, List.cons_append]
          split
          · next r heq =>
            exfalso
            injection heq with he1 _
            exact absurd he1 (by decide)
          · rw [← List.cons_append, ← hpf]
            have hsz2 : jsizeFields (p0 :: fs2) ≤ fuel := by
              rw [jsize] at hsz
              omega
            rw [ihQ (p0 :: fs2) rest (by simp) hser hsz2]
            rfl
    · intro fs rest hne hser hsz
      cases fs with
      | nil => exact absurd rfl hne
      | cons p0 fs2 =>
        obtain ⟨k, v⟩ := p0
        rw [serializableFields] at hser
        simp only [Bool.and_eq_true] at hser
        obtain ⟨hv, hfs2⟩ := hser
        cases fs2 with
        | nil =>
          rw [show printFields [(k, v)] = jsonQuote k ++ ':' :: printVal v by
            rw [printFields], jsonQuote]
          simp only [List.cons_append, List.append_assoc,
            List.singleton_append, List.nil_append]
          have hszv : jsize v ≤ fuel := by
            rw [jsizeFields, jsizeFields] at hsz
            omega
          rw [parseMembers_succ_last fuel k (printVal v) rest v
            (ihP v ('}' :: rest) hv hszv (by rfl))]
        | cons p1 fs3 =>
          have hpf : printFields ((k, v) :: p1 :: fs3) =
              jsonQuote k ++ ':' :: printVal v ++ ',' ::
                printFields (p1 :: fs3) := by
            rw [printFields]
            simp
          rw [hpf, jsonQuote]
          simp only [List.cons_append, List.append_assoc,
            List.singleton_append, List.nil_append]
          have hszv : jsize v ≤ fuel := by
            rw [jsizeFields] at hsz
            have := jsizeFields_pos (show p1 :: fs3 ≠ [] by simp)
            omega
          rw [parseMembers_succ_more fuel k (printVal v)
            (printFields (p1 :: fs3) ++ '}' :: rest) v
            (ihP v (',' :: (printFields (p1 :: fs3) ++ '}' :: rest)) hv hszv
              (by rfl))]
          have hszf : jsizeFields (p1 :: fs3) ≤ fuel := by
            rw [jsizeFields] at hsz
            have := jsize_pos v
            omega
          rw [ihQ (p1 :: fs3) rest (by simp) hfs2 hszf]
          rfl
    · intro es rest hne hser hsz
      cases es with
      | nil => exact absurd rfl hne
      | cons v0 es2 =>
        rw [serializableElems] at hser
        simp only [Bool.and_eq_true] at hser
        obtain ⟨hv, hes2⟩ := hser
        cases es2 with
        | nil =>
          rw [show printElems [v0] = printVal v0 by rw [printElems]]
          have hszv : jsize v0 ≤ fuel := by
            rw [jsizeElems, jsizeElems] at hsz
            omega
          rw [parseElems_succ_last fuel (printVal v0) rest v0
            (ihP v0 (']' :: rest) hv hszv (by rfl))]
        | cons v1 es3 =>
          have hpe : printElems (v0 :: v1 :: es3) =
              printVal v0 ++ ',' :: printElems (v1 :: es3) := by
            rw [printElems]
            simp
          rw [hpe, List.append_assoc, List.cons_append]
          have hszv : jsize v0 ≤ fuel := by
            rw [jsizeElems] at hsz
            have := jsizeElems_pos (show v1 :: es3 ≠ [] by simp)
            omega
          rw [parseElems_succ_more fuel (printVal v0)
            (printElems (v1 :: es3) ++ ']' :: rest) v0
            (ihP v0 (',' :: (printElems (v1 :: es3) ++ ']' :: rest)) hv hszv
              (by rfl))]
          have hszr : jsizeElems (v1 :: es3) ≤ fuel := by
            rw [jsizeElems] at hsz
            have := jsize_pos v0
            omega
          rw [ihR (v1 :: es3) rest (by simp) hes2 hszr]
          rfl


/-! ### `createFormData` and `parseFormData` (lines 129-162) -/

/-- `JSON.parse (JSON.stringify v) = v` on the serializable fragment. -/
theorem jsonParse_stringify (v : JSVal) (h : serializable v = true) :
    jsonParse (jsonStringify v) = some v := by
  have hrt := (parse_print_rt ((printVal v).length + 1)).1 v [] h
    (Nat.le_succ_of_le (jsize_le v)) rfl
  rw [List.append_nil] at hrt
  simp only [jsonParse, jsonStringify]
  rw [hrt]

/-- `createFormData` (lines 129-137): serialize and append under `key`
(`"formData"` in the source when the argument is omitted). -/
def createFormData (data : JSVal) (key : String) : List (String × JSVal) :=
  [(key, JSVal.str (jsonStringify data))]

/-- `FormData.get`: the first value stored under the key, or `null`
(modelled as `none`) when the key is absent. -/
def fdGet (entries : List (String × JSVal)) (key : String) : Option JSVal :=
  (entries.find? (fun p => p.1 == key)).map Prod.snd

/-- `parseFormData` (lines 146-162) on an already-read form body: when
`formData.get(key)` is absent or falsy (`!data`), fall back to flattening
the whole entry set; when it is a truthy non-string, throw
`Error("Data is not a string")`; otherwise `JSON.parse` it (a
`SyntaxError` on malformed text). -/
def parseFormData (entries : List (String × JSVal)) (key : String) :
    Except JErr JSVal :=
  match fdGet entries key with
  | none => generateFormData entries
  | some data =>
    if !evTruthy data then generateFormData entries
    else
      match data with
      | .str s =>
        match jsonParse s with
        | some v => Except.ok v
        | none => Except.error JErr.badJson
      | _ => Except.error JErr.notAString

/-- C5 counterexample: a value can be PRESENT under the key and still fall
back to flattening, and a present STRING value can still throw.  With the
empty string stored under "formData", `formData.get` returns it (it is not
absent), yet `!data` is true for the falsy `""`, so `parseFormData` falls
back to `generateFormData` instead of JSON-decoding; and with the
non-JSON string "nope" stored there, the value is a string, yet
`JSON.parse` throws a `SyntaxError` instead of returning a result. -/
theorem parseFormData_present_not_dichotomy :
    fdGet [("formData", JSVal.str "")] "formData" = some (JSVal.str "")
    ∧ parseFormData [("formData", JSVal.str "")] "formData" =
        generateFormData [("formData", JSVal.str "")]
    ∧ parseFormData [("formData", JSVal.str "nope")] "formData" =
        Except.error JErr.badJson :=
  ⟨rfl, rfl, rfl⟩

/-- C5 (amended): `parseFormData` falls back to flattening the full entry
set exactly when the value under the key is absent OR falsy (the empty
string); a truthy string value is JSON-decoded, returning the decoded
value on success and throwing a `SyntaxError` on malformed text; a truthy
non-string value throws `Error("Data is not a string")`. -/
theorem parseFormData_spec (entries : List (String × JSVal)) (key : String) :
    (fdGet entries key = none →
      parseFormData entries key = generateFormData entries)
    ∧ (∀ d, fdGet entries key = some d → evTruthy d = false →
      parseFormData entries key = generateFormData entries)
    ∧ (∀ s v, fdGet entries key = some (JSVal.str s) → s ≠ "" →
      jsonParse s = some v → parseFormData entries key = Except.ok v)
    ∧ (∀ s, fdGet entries key = some (JSVal.str s) → s ≠ "" →
      jsonParse s = none →
      parseFormData entries key = Except.error JErr.badJson)
    ∧ (∀ d, fdGet entries key = some d → evTruthy d = true →
      (∀ s, d ≠ JSVal.str s) →
      parseFormData entries key = Except.error JErr.notAString) := by
  refine ⟨?_, ?_, ?_, ?_, ?_⟩
  · intro h
    simp [parseFormData, h]
  · intro d h hf
    simp [parseFormData, h, hf]
  · intro s v h hne hj
    simp [parseFormData, h, evTruthy, hne, hj]
  · intro s h hne hj
    simp [parseFormData, h, evTruthy, hne, hj]
  · intro d h ht hns
    cases d with
    | str s => exact absurd rfl (hns s)
    | null => rw [evTruthy] at ht; exact Bool.noConfusion ht
    | undef => rw [evTruthy] at ht; exact Bool.noConfusion ht
    | bool b =>
      rw [evTruthy] at ht
      subst ht
      simp [parseFormData, h, evTruthy]
    | num n =>
      rw [evTruthy] at ht
      have hn : n ≠ 0 := by simpa using ht
      simp [parseFormData, h, evTruthy, hn]
    | arr es ps => simp [parseFormData, h, evTruthy, ht]
    | obj fs => simp [parseFormData, h, evTruthy, ht]

theorem parseFormData_spec_witness :
    fdGet [("other", JSVal.str "x")] "formData" = none
    ∧ parseFormData [("other", JSVal.str "x")] "formData" =
        generateFormData [("other", JSVal.str "x")] :=
  ⟨rfl, (parseFormData_spec [("other", JSVal.str "x")] "formData").1 rfl⟩

/-- C6: the round trip.  For every JSON-serializable value and every key,
parsing the form body produced by `createFormData` with the same key
returns the original value. -/
theorem createFormData_parseFormData_roundtrip (v : JSVal) (key : String)
    (h : serializable v = true) :
    parseFormData (createFormData v key) key = Except.ok v := by
  have hne : (printVal v).length ≠ 0 := by
    have h1 := jsize_pos v
    have h2 := jsize_le v
    omega
  have hget : fdGet (createFormData v key) key =
      some (JSVal.str (jsonStringify v)) := by
    simp [fdGet, createFormData]
  have ht : evTruthy (JSVal.str (jsonStringify v)) = true := by
    rw [evTruthy]
    simp only [bne_iff_ne, ne_eq, decide_eq_true_eq]
    intro hc
    apply hne
    have hd : (jsonStringify v).data = ("" : String).data := by rw [hc]
    simpa [jsonStringify] using hd
  rw [parseFormData, hget]
  simp only [ht, Bool.not_true, Bool.false_eq_true, if_false]
  rw [jsonParse_stringify v h]

theorem createFormData_parseFormData_roundtrip_witness :
    serializable (JSVal.obj [("a", JSVal.num 1)]) = true
    ∧ parseFormData
        (createFormData (JSVal.obj [("a", JSVal.num 1)]) "formData")
        "formData" = Except.ok (JSVal.obj [("a", JSVal.num 1)]) :=
  ⟨rfl, createFormData_parseFormData_roundtrip
    (JSVal.obj [("a", JSVal.num 1)]) "formData" rfl⟩


end RemixHookForm
